import Mathlib

set_option maxRecDepth 100000

/-!
Verification of the pagination / column-flow layout engine of
`streamlit_app.py` (vocabulary quiz sheet generator).

Strings are modelled as `List Char`, geometry values as exact rationals
(`ℚ`).  The font width oracle `pdfmetrics.stringWidth(·, font, size)` is an
external collaborator (font metrics are not part of this repository), so it
is modelled as an abstract function `List Char → ℚ` carried in the
configuration; claims quantify over it or instantiate it concretely.
-/

namespace Aleph

/-! ## Python string primitives used by the source -/

/-- The character set stripped by Python's `str.strip()` (characters for
which `str.isspace()` holds). -/
def isPySpace (c : Char) : Bool :=
  c = ' ' || c = '\t' || c = '\n' || c = '\x0b' || c = '\x0c' || c = '\r' ||
  c = '\x1c' || c = '\x1d' || c = '\x1e' || c = '\x1f' || c = '\x85' ||
  c = ' ' || c = ' ' ||
  (0x2000 ≤ c.toNat && c.toNat ≤ 0x200a) ||
  c = ' ' || c = ' ' || c = ' ' || c = ' ' || c = '　'

/-- Python `s.strip()`: remove leading and trailing whitespace. -/
def pyStrip (s : List Char) : List Char :=
  ((s.dropWhile isPySpace).reverse.dropWhile isPySpace).reverse

/-- Python `s.split(" ")`: split on every single occurrence of a space,
keeping empty fields (`"a  b".split(" ") == ["a", "", "b"]`,
`"".split(" ") == [""]`). -/
def splitOnSpace : List Char → List (List Char)
  | [] => [[]]
  | c :: rest =>
    if c = ' ' then [] :: splitOnSpace rest
    else
      match splitOnSpace rest with
      | [] => [[c]]
      | w :: ws => (c :: w) :: ws

/-! ## `wrap_text_by_width` (src/streamlit_app.py lines 47-82)

The source iterates over `text.split(" ")` accumulating a current line
`cur`; an over-wide word is broken character by character in an inner loop
over the accumulator `sub`.  Both loops are modelled as `List.foldl` over a
state `(lines, accumulator)`.  The width oracle is `μ` (the source calls
`pdfmetrics.stringWidth(candidate, font_name, font_size_pt)`; font name and
size are fixed throughout a run, so they are folded into `μ`). -/

/-- One step of the inner character loop (`for ch in w: ...`). -/
def charStep (μ : List Char → ℚ) (maxW : ℚ)
    (st : List (List Char) × List Char) (ch : Char) :
    List (List Char) × List Char :=
  let (lines, sub) := st
  if μ (sub ++ [ch]) ≤ maxW then (lines, sub ++ [ch])
  else if sub = [] then (lines, [ch]) else (lines ++ [sub], [ch])

/-- One step of the outer word loop (`for w in words: ...`). -/
def wordStep (μ : List Char → ℚ) (maxW : ℚ)
    (st : List (List Char) × List Char) (w : List Char) :
    List (List Char) × List Char :=
  let (lines, cur) := st
  let candidate := if cur = [] then w else pyStrip (cur ++ [' '] ++ w)
  if μ candidate ≤ maxW then (lines, candidate)
  else
    let lines1 := if cur = [] then lines else lines ++ [cur]
    if μ w ≤ maxW then (lines1, w)
    else w.foldl (charStep μ maxW) (lines1, [])

/-- `wrap_text_by_width(text, font_name, font_size_pt, max_width_pt)`.
(The `text is None` guard has no counterpart: texts are `List Char`.) -/
def wrap_text_by_width (μ : List Char → ℚ) (maxW : ℚ) (text : List Char) :
    List (List Char) :=
  if pyStrip text = [] then []
  else
    let st := (splitOnSpace text).foldl (wordStep μ maxW) ([], [])
    if st.2 = [] then st.1 else st.1 ++ [st.2]

/-! ## Pure character-level wrapping, modelled from the spec (§4.2)

Modelled from the spec: "start with an empty accumulator; for each
character in input order, tentatively append it; if the measured width of
the tentative accumulator is ≤ `max_width`, commit the append; otherwise,
flush the accumulator as a completed line (if non-empty) and start a new
accumulator containing just that character.  After exhausting input, flush
any remaining accumulator as a final line."  This definition exists only to
be compared against `wrap_text_by_width` (claim C6); it is not part of the
source. -/
def char_level_wrap_spec (μ : List Char → ℚ) (maxW : ℚ) (text : List Char) :
    List (List Char) :=
  let st := text.foldl
    (fun (st : List (List Char) × List Char) ch =>
      let (lines, acc) := st
      if μ (acc ++ [ch]) ≤ maxW then (lines, acc ++ [ch])
      else if acc = [] then (lines, [ch]) else (lines ++ [acc], [ch]))
    ([], [])
  if st.2 = [] then st.1 else st.1 ++ [st.2]

/-! ## Data model and geometry

`word_pairs` entries are `(eng, kor, is_kor_blank)` tuples; `is_kor_blank =
true` means the English side is shown and the Korean side is the hidden
answer (the spec's `front_is_shown`).  The geometry values are the local
point-valued variables computed at the top of `create_test_pdf` /
`create_answer_pdf` (identical in both); `mmQ` is reportlab's
`mm = 72 / 25.4` points, exact as a rational. -/

def mmQ : ℚ := 360 / 127

structure WordPair where
  eng : List Char
  kor : List Char
  is_kor_blank : Bool
deriving DecidableEq, Repr

structure Config where
  /-- `pdfmetrics.stringWidth(·, FONT_NAME, char_size_pt)`: external font
  metric oracle, abstract here. -/
  stringWidth : List Char → ℚ
  page_w : ℚ
  page_h : ℚ
  num_x1 : ℚ
  under_x1 : ℚ
  under_len : ℚ
  num_x2 : ℚ
  under_x2 : ℚ
  top_offset : ℚ
  bottom_reserved : ℚ
  char_size : ℚ
  line_height_en : ℚ
  ko_gap : ℚ

/-- `text_x1 = num_x1 + 6 * mm`. -/
def Config.text_x1 (cfg : Config) : ℚ := cfg.num_x1 + 6 * mmQ

/-- `text_x2 = num_x2 + 6 * mm`. -/
def Config.text_x2 (cfg : Config) : ℚ := cfg.num_x2 + 6 * mmQ

/-- `text_max_w1 = (under_x1 - 2 * mm) - text_x1`. -/
def Config.text_max_w1 (cfg : Config) : ℚ := (cfg.under_x1 - 2 * mmQ) - cfg.text_x1

/-- `text_max_w2 = (under_x2 - 2 * mm) - text_x2`. -/
def Config.text_max_w2 (cfg : Config) : ℚ := (cfg.under_x2 - 2 * mmQ) - cfg.text_x2

/-- `y_col_start = page_h_pt - top_offset`: first baseline of each column. -/
def Config.topY (cfg : Config) : ℚ := cfg.page_h - cfg.top_offset

/-- `per_line_h = char_size_pt * 1.1`. -/
def Config.perLineH (cfg : Config) : ℚ := cfg.char_size * (11 / 10)

/-- The configuration built from the module-level `*_MM` constants
(`NUM_X1_MM = 24` etc.) with `A4 = (210mm, 297mm)`, as converted at the top
of both pdf functions; the width oracle stays a parameter. -/
def defaultConfig (μ : List Char → ℚ) : Config where
  stringWidth := μ
  page_w := 210 * mmQ
  page_h := 297 * mmQ
  num_x1 := 24 * mmQ
  under_x1 := 62 * mmQ
  under_len := 37 * mmQ
  num_x2 := 111 * mmQ
  under_x2 := 152 * mmQ
  top_offset := 62 * mmQ
  bottom_reserved := 24 * mmQ
  char_size := 2 * mmQ
  line_height_en := 4 * mmQ
  ko_gap := 4 * mmQ

/-! ## Per-item layout quantities (loop bodies of both pdf functions) -/

/-- `shown_text = eng if is_kor_blank else kor`. -/
def shownText (p : WordPair) : List Char := if p.is_kor_blank then p.eng else p.kor

/-- `answer_text = kor if is_kor_blank else eng` (answer sheet only): the
string NOT displayed as the prompt. -/
def answerText (p : WordPair) : List Char := if p.is_kor_blank then p.kor else p.eng

/-- `lines = wrap_text_by_width(shown_text, ...); if not lines: lines = [""]`. -/
def wrappedLines (cfg : Config) (w : ℚ) (p : WordPair) : List (List Char) :=
  let l := wrap_text_by_width cfg.stringWidth w (shownText p)
  if l = [] then [[]] else l

/-- `gap_after = line_height_en if is_kor_blank else ko_gap`.  (An earlier
dead assignment of `gap_after` in the left-column body of
`create_test_pdf` is immediately overwritten by this one.) -/
def gapAfter (cfg : Config) (p : WordPair) : ℚ :=
  if p.is_kor_blank then cfg.line_height_en else cfg.ko_gap

/-- `needed_space = block_h + gap_after` where
`block_h = len(lines) * per_line_h`. -/
def neededSpace (cfg : Config) (w : ℚ) (p : WordPair) : ℚ :=
  ((wrappedLines cfg w p).length : ℚ) * cfg.perLineH + gapAfter cfg p

/-- Required vertical space in the left column (wrap width `text_max_w1`). -/
def neededL (cfg : Config) (p : WordPair) : ℚ := neededSpace cfg cfg.text_max_w1 p

/-- Required vertical space in the right column (wrap width `text_max_w2`). -/
def neededR (cfg : Config) (p : WordPair) : ℚ := neededSpace cfg cfg.text_max_w2 p

/-! ## Drawing command stream

Commands emitted to the reportlab canvas.  `drawString` carries the fill
color current at the call site (the source sets `setFillColor` immediately
before each drawing group: black for numbers / prompt lines / footers /
header, blue for answer lines).  Cosmetic calls (`setFont`,
`setLineWidth`) are not modelled. -/

inductive PdfColor | black | blue
deriving DecidableEq, Repr

inductive Cmd
  | drawString (x y : ℚ) (s : List Char) (color : PdfColor)
  | drawCentredString (x y : ℚ) (s : List Char) (color : PdfColor)
  | drawLine (x1 y1 x2 y2 : ℚ)
  | showPage
deriving DecidableEq, Repr

/-- `f"{idx+1}."` — the printed 1-based item number (`idx` 0-based). -/
def numberText (idx : ℕ) : List Char := Nat.toDigits 10 (idx + 1) ++ ['.']

/-- `f"Page {page_no}"` — the footer text of both documents. -/
def pageText (page_no : ℕ) : List Char := "Page ".toList ++ Nat.toDigits 10 page_no

/-- Footer emission: `c.drawCentredString(page_w_pt / 2, bottom_reserved / 2,
page_count_text)`.  The source also computes an "approximate fallback"
`total_pages` value in `create_test_pdf` and discards it; the footer text
actually drawn is `f"Page {page_no}"` in both documents. -/
def footerCmd (cfg : Config) (page_no : ℕ) : Cmd :=
  Cmd.drawCentredString (cfg.page_w / 2) (cfg.bottom_reserved / 2) (pageText page_no)
    PdfColor.black

/-- `draw_header_on_canvas(c, page_w_pt, page_h_pt, filename_label,
font_size_pt)` (first page only). -/
def headerCmds (cfg : Config) (label : Option (List Char)) : List Cmd :=
  let header_y := cfg.page_h - 6 * mmQ
  let title := match label with
    | some l => l ++ " - 영어 단어 시험지".toList
    | none => "영어 단어 시험지".toList
  let sep_y := header_y - 4 * mmQ
  let meta_y := sep_y - 6 * mmQ
  let left_meta_x := cfg.page_w / 2 + 10 * mmQ
  [Cmd.drawCentredString (cfg.page_w / 2) header_y title PdfColor.black,
   Cmd.drawLine (12 * mmQ) sep_y (cfg.page_w - 12 * mmQ) sep_y,
   Cmd.drawString left_meta_x meta_y "이름: _______________________".toList PdfColor.black,
   Cmd.drawString left_meta_x (meta_y - 6 * mmQ) "학년/반: __ / __     번호: ____".toList PdfColor.black,
   Cmd.drawString left_meta_x (meta_y - 12 * mmQ) "점수: ______ / 100".toList PdfColor.black,
   Cmd.drawString left_meta_x (meta_y - 18 * mmQ) "시험일: ____________________".toList PdfColor.black]

/-- Drawing commands for one placed item on the quiz sheet: number, wrapped
prompt lines, underline (at `y - 0.1 * mm`). -/
def itemCmds (cfg : Config) (numX textX underX : ℚ) (idx : ℕ) (y : ℚ)
    (lines : List (List Char)) : List Cmd :=
  Cmd.drawString numX y (numberText idx) PdfColor.black ::
  (lines.enum.map fun li =>
    Cmd.drawString textX (y - (li.1 : ℚ) * cfg.perLineH) li.2 PdfColor.black) ++
  [Cmd.drawLine underX (y - mmQ / 10) (underX + cfg.under_len) (y - mmQ / 10)]

/-- Answer-sheet extra: the hidden string wrapped to `under_len - 2 * mm`,
drawn in blue at `under_x + 1 * mm`, stacked by `per_line_h`. -/
def answerCmds (cfg : Config) (underX : ℚ) (y : ℚ) (p : WordPair) : List Cmd :=
  (wrap_text_by_width cfg.stringWidth (cfg.under_len - 2 * mmQ) (answerText p)).enum.map
    fun li => Cmd.drawString (underX + 1 * mmQ) (y - (li.1 : ℚ) * cfg.perLineH) li.2
      PdfColor.blue

/-! ## The two per-column placement passes (quiz sheet)

`create_test_pdf`'s inner `while idx < total` loops.  The global item index
is replaced by the list of still-unplaced items (head = `word_pairs[idx]`)
plus the numeric `idx` carried for the printed numbers.  Each pass returns
(emitted commands, final `idx`, final cursor `y`, unplaced remainder). -/

def placeLeftTest (cfg : Config) :
    ℕ → ℚ → List WordPair → List Cmd × ℕ × ℚ × List WordPair
  | idx, y, [] => ([], idx, y, [])
  | idx, y, p :: rest =>
    let lines := wrappedLines cfg cfg.text_max_w1 p
    let needed := neededL cfg p
    if y - needed < cfg.bottom_reserved then ([], idx, y, p :: rest)
    else
      let r := placeLeftTest cfg (idx + 1) (y - needed) rest
      (itemCmds cfg cfg.num_x1 cfg.text_x1 cfg.under_x1 idx y lines ++ r.1, r.2)

def placeRightTest (cfg : Config) :
    ℕ → ℚ → List WordPair → List Cmd × ℕ × ℚ × List WordPair
  | idx, y, [] => ([], idx, y, [])
  | idx, y, p :: rest =>
    let lines := wrappedLines cfg cfg.text_max_w2 p
    let needed := neededR cfg p
    if y - needed < cfg.bottom_reserved then ([], idx, y, p :: rest)
    else
      let r := placeRightTest cfg (idx + 1) (y - needed) rest
      (itemCmds cfg cfg.num_x2 cfg.text_x2 cfg.under_x2 idx y lines ++ r.1, r.2)

/-! ## The two per-column placement passes (answer sheet)

`create_answer_pdf`'s inner loops: identical flow arithmetic, plus the blue
answer lines after each underline. -/

def placeLeftAns (cfg : Config) :
    ℕ → ℚ → List WordPair → List Cmd × ℕ × ℚ × List WordPair
  | idx, y, [] => ([], idx, y, [])
  | idx, y, p :: rest =>
    let lines := wrappedLines cfg cfg.text_max_w1 p
    let needed := neededL cfg p
    if y - needed < cfg.bottom_reserved then ([], idx, y, p :: rest)
    else
      let r := placeLeftAns cfg (idx + 1) (y - needed) rest
      (itemCmds cfg cfg.num_x1 cfg.text_x1 cfg.under_x1 idx y lines ++
        answerCmds cfg cfg.under_x1 y p ++ r.1, r.2)

def placeRightAns (cfg : Config) :
    ℕ → ℚ → List WordPair → List Cmd × ℕ × ℚ × List WordPair
  | idx, y, [] => ([], idx, y, [])
  | idx, y, p :: rest =>
    let lines := wrappedLines cfg cfg.text_max_w2 p
    let needed := neededR cfg p
    if y - needed < cfg.bottom_reserved then ([], idx, y, p :: rest)
    else
      let r := placeRightAns cfg (idx + 1) (y - needed) rest
      (itemCmds cfg cfg.num_x2 cfg.text_x2 cfg.under_x2 idx y lines ++
        answerCmds cfg cfg.under_x2 y p ++ r.1, r.2)

/-! ## Page loops

The outer `while idx < total` loop of each pdf function, modelled with
explicit fuel (the source loop need not terminate: if an item fits in
neither fresh column the index never advances — claim C3).  A page draws
the first-page header, runs the left then the right pass (both columns
restart at `topY` on every page), draws the footer, and starts a new page
(`c.showPage(); page_no += 1`) iff items remain.  The result is the pair
(full command stream, final `page_no`); `none` means the fuel ran out. -/

def create_test_loop (cfg : Config) (label : Option (List Char)) :
    ℕ → ℕ → List WordPair → ℕ → Option (List Cmd × ℕ)
  | _, page_no, [], _ => some ([], page_no)
  | _, _, _ :: _, 0 => none
  | idx, page_no, items@(_ :: _), fuel + 1 =>
    let hdr := if page_no = 1 then headerCmds cfg label else []
    let L := placeLeftTest cfg idx cfg.topY items
    let R := placeRightTest cfg L.2.1 cfg.topY L.2.2.2
    if R.2.2.2 = [] then some (hdr ++ L.1 ++ R.1 ++ [footerCmd cfg page_no], page_no)
    else
      match create_test_loop cfg label R.2.1 (page_no + 1) R.2.2.2 fuel with
      | none => none
      | some st =>
        some (hdr ++ L.1 ++ R.1 ++ [footerCmd cfg page_no, Cmd.showPage] ++ st.1, st.2)

def create_answer_loop (cfg : Config) (label : Option (List Char)) :
    ℕ → ℕ → List WordPair → ℕ → Option (List Cmd × ℕ)
  | _, page_no, [], _ => some ([], page_no)
  | _, _, _ :: _, 0 => none
  | idx, page_no, items@(_ :: _), fuel + 1 =>
    let hdr := if page_no = 1 then headerCmds cfg label else []
    let L := placeLeftAns cfg idx cfg.topY items
    let R := placeRightAns cfg L.2.1 cfg.topY L.2.2.2
    if R.2.2.2 = [] then some (hdr ++ L.1 ++ R.1 ++ [footerCmd cfg page_no], page_no)
    else
      match create_answer_loop cfg label R.2.1 (page_no + 1) R.2.2.2 fuel with
      | none => none
      | some st =>
        some (hdr ++ L.1 ++ R.1 ++ [footerCmd cfg page_no, Cmd.showPage] ++ st.1, st.2)

/-- `create_test_pdf(word_pairs, num_questions, filename_label)`:
`total = min(num_questions, len(word_pairs))`, then the page loop from
`idx = 0`, `page_no = 1`. -/
def create_test_pdf (cfg : Config) (word_pairs : List WordPair)
    (num_questions : ℕ) (label : Option (List Char)) (fuel : ℕ) :
    Option (List Cmd × ℕ) :=
  create_test_loop cfg label 0 1
    (word_pairs.take (min num_questions word_pairs.length)) fuel

/-- `create_answer_pdf(word_pairs, num_questions, filename_label)`. -/
def create_answer_pdf (cfg : Config) (word_pairs : List WordPair)
    (num_questions : ℕ) (label : Option (List Char)) (fuel : ℕ) :
    Option (List Cmd × ℕ) :=
  create_answer_loop cfg label 0 1
    (word_pairs.take (min num_questions word_pairs.length)) fuel

/-! ## Placement automaton

The placement decisions of the page loops, extracted as a single step
function on a cursor state, folded over the item sequence.  Within a page
the loops fill the left column until the first item that does not fit, then
the right column (from `topY`, the cursors being independent) until the
first item that does not fit there, then start a fresh page and retry the
same item in the left column.  The fold is proved equivalent to the fueled
loops below (for runs in which every item fits some fresh column); the
page-count claims are settled through it. -/

inductive Col | left | right
deriving DecidableEq, Repr

structure SimState where
  page : ℕ
  col : Col
  y : ℚ
deriving DecidableEq, Repr

/-- One item's placement.  In the left phase: place left if it fits, else
switch to the right column at `topY`, else start a new page in the left
column.  In the right phase: place right if it fits, else new page left if
the item fits a fresh left column, else new page right.  (When an item fits
neither fresh column the source loops forever; the two `else` fallbacks are
then exercised but the equivalence with the loops only holds — and is only
claimed — when every item fits some fresh column.) -/
def placeItem (cfg : Config) (s : SimState) (p : WordPair) : SimState :=
  match s.col with
  | Col.left =>
    if cfg.bottom_reserved ≤ s.y - neededL cfg p then
      ⟨s.page, Col.left, s.y - neededL cfg p⟩
    else if cfg.bottom_reserved ≤ cfg.topY - neededR cfg p then
      ⟨s.page, Col.right, cfg.topY - neededR cfg p⟩
    else ⟨s.page + 1, Col.left, cfg.topY - neededL cfg p⟩
  | Col.right =>
    if cfg.bottom_reserved ≤ s.y - neededR cfg p then
      ⟨s.page, Col.right, s.y - neededR cfg p⟩
    else if cfg.bottom_reserved ≤ cfg.topY - neededL cfg p then
      ⟨s.page + 1, Col.left, cfg.topY - neededL cfg p⟩
    else ⟨s.page + 1, Col.right, cfg.topY - neededR cfg p⟩

def initState (cfg : Config) : SimState := ⟨1, Col.left, cfg.topY⟩

/-- The page count of an item sequence: final `page_no` of the placement
automaton (1 for the empty sequence — no page break ever fires). -/
def count_pages (cfg : Config) (items : List WordPair) : ℕ :=
  (items.foldl (placeItem cfg) (initState cfg)).page

/-- Item `p` fits in at least one fresh (empty) column.  Violating this for
any item makes the source's page loop run forever (claim C3). -/
def Fits (cfg : Config) (p : WordPair) : Prop :=
  cfg.bottom_reserved ≤ cfg.topY - neededL cfg p ∨
  cfg.bottom_reserved ≤ cfg.topY - neededR cfg p

instance (cfg : Config) (p : WordPair) : Decidable (Fits cfg p) := by
  unfold Fits; infer_instance

/-- Sign conditions on the geometry (all true of `defaultConfig`): the
vertical extents entering `needed_space` are nonnegative. -/
def Config.Valid (cfg : Config) : Prop :=
  0 ≤ cfg.char_size ∧ 0 ≤ cfg.line_height_en ∧ 0 ≤ cfg.ko_gap

instance (cfg : Config) : Decidable cfg.Valid := by
  unfold Config.Valid; infer_instance

/-- `create_test_pdf` terminates on the given input: some fuel suffices. -/
def TestTerminates (cfg : Config) (word_pairs : List WordPair)
    (num_questions : ℕ) (label : Option (List Char)) : Prop :=
  ∃ fuel r, create_test_pdf cfg word_pairs num_questions label fuel = some r

/-- `create_answer_pdf` terminates on the given input. -/
def AnswerTerminates (cfg : Config) (word_pairs : List WordPair)
    (num_questions : ℕ) (label : Option (List Char)) : Prop :=
  ∃ fuel r, create_answer_pdf cfg word_pairs num_questions label fuel = some r

/-! ## Observation helpers for concrete runs -/

/-- Texts drawn centred inside the bottom reserved band (at
`bottom_reserved / 2`): the page footers.  (The only other centred text —
the header title — sits near the top of the page.) -/
def footerTexts (cfg : Config) (cmds : List Cmd) : List (List Char) :=
  cmds.filterMap fun c =>
    match c with
    | Cmd.drawCentredString _ y s _ =>
      if y = cfg.bottom_reserved / 2 then some s else none
    | _ => none

/-- The x-positions of the drawn item numbers (the only drawn strings
ending in `'.'`), in emission order: `num_x1` marks a left-column
placement, `num_x2` a right-column one. -/
def numberXs (cmds : List Cmd) : List ℚ :=
  cmds.filterMap fun c =>
    match c with
    | Cmd.drawString x _ s _ => if s.getLast? = some '.' then some x else none
    | _ => none

/-- The strings drawn in blue, in emission order: exactly the answer lines
of the answer sheet. -/
def blueTexts (cmds : List Cmd) : List (List Char) :=
  cmds.filterMap fun c =>
    match c with
    | Cmd.drawString _ _ s PdfColor.blue => some s
    | _ => none

/-! ## Concrete test geometries

`toyCfg` realizes the spec's Scenario B geometry: each one-line item
consumes `22 + 10 = 32` points of a `90 - 10 = 80`-point column, so a
column holds exactly 2 items.  The width oracle is the character count, so
short texts wrap to a single line.  `badCfg` shrinks the column text width
to 2 characters, so an 8-character word wraps to 4 lines and needs
`4 * 22 + 10 = 98 > 80` points: it fits in no fresh column. -/

def toyCfg : Config where
  stringWidth := fun s => (s.length : ℚ)
  page_w := 200
  page_h := 100
  num_x1 := 0
  under_x1 := 1000 + 8 * mmQ
  under_len := 500
  num_x2 := 2000
  under_x2 := 3000 + 8 * mmQ
  top_offset := 10
  bottom_reserved := 10
  char_size := 20
  line_height_en := 10
  ko_gap := 10

def badCfg : Config :=
  { toyCfg with under_x1 := 2 + 8 * mmQ, under_x2 := 2002 + 8 * mmQ }

/-- An item whose 8-character shown text wraps (in `badCfg`) to 4 lines in
either column: it fits in no fresh column. -/
def badItem : WordPair := ⟨"aaaaaaaa".toList, "bbbbbbbb".toList, true⟩

/-- Scenario B items: flags `[shown, shown, hidden, hidden, shown]`. -/
def items5 : List WordPair :=
  [⟨"a".toList, "b".toList, true⟩, ⟨"c".toList, "d".toList, true⟩,
   ⟨"e".toList, "f".toList, false⟩, ⟨"g".toList, "h".toList, false⟩,
   ⟨"i".toList, "j".toList, true⟩]

/-! ## Lemmas about the wrap function -/

/-- Every character of a field of `split(" ")` is a character of the
original string. -/
theorem mem_of_mem_splitOnSpace : ∀ {t : List Char} {w : List Char},
    w ∈ splitOnSpace t → ∀ {c : Char}, c ∈ w → c ∈ t := by
  intro t
  induction t with
  | nil =>
    intro w hw c hc
    rw [show splitOnSpace [] = [[]] from rfl, List.mem_singleton] at hw
    subst hw
    exact absurd hc (List.not_mem_nil c)
  | cons c0 rest ih =>
    intro w hw c hc
    by_cases h0 : c0 = ' '
    · subst h0
      have he : splitOnSpace (' ' :: rest) = [] :: splitOnSpace rest := by
        simp [splitOnSpace]
      rw [he] at hw
      rcases List.mem_cons.1 hw with h | h
      · subst h; exact absurd hc (List.not_mem_nil c)
      · exact List.mem_cons_of_mem _ (ih h hc)
    · rcases hsplit : splitOnSpace rest with _ | ⟨w0, ws⟩
      · have he : splitOnSpace (c0 :: rest) = [[c0]] := by
          simp [splitOnSpace, h0, hsplit]
        rw [he, List.mem_singleton] at hw
        subst hw
        rcases List.mem_singleton.1 hc with rfl
        exact List.mem_cons_self _ _
      · have he : splitOnSpace (c0 :: rest) = (c0 :: w0) :: ws := by
          simp [splitOnSpace, h0, hsplit]
        rw [he] at hw
        rcases List.mem_cons.1 hw with h | h
        · subst h
          rcases List.mem_cons.1 hc with h | h
          · subst h; exact List.mem_cons_self _ _
          · exact List.mem_cons_of_mem _
              (ih (by rw [hsplit]; exact List.mem_cons_self _ _) h)
        · exact List.mem_cons_of_mem _
            (ih (by rw [hsplit]; exact List.mem_cons_of_mem _ h) hc)

/-- If the string contains no space, `split(" ")` returns it whole. -/
theorem splitOnSpace_eq_self {t : List Char} (h : ∀ c ∈ t, c ≠ ' ') :
    splitOnSpace t = [t] := by
  induction t with
  | nil => rfl
  | cons c0 rest ih =>
    have h0 : c0 ≠ ' ' := h c0 (List.mem_cons_self _ _)
    have hrest := ih fun c hc => h c (List.mem_cons_of_mem _ hc)
    simp only [splitOnSpace, if_neg h0, hrest]

/-- A string with no whitespace characters is unchanged by `strip()`. -/
theorem pyStrip_eq_self {t : List Char} (h : ∀ c ∈ t, isPySpace c = false) :
    pyStrip t = t := by
  have hdrop : ∀ (s : List Char), (∀ c ∈ s, isPySpace c = false) →
      s.dropWhile isPySpace = s := by
    intro s hs
    cases s with
    | nil => rfl
    | cons a s' =>
      rw [List.dropWhile_cons_of_neg]
      simp [hs a (List.mem_cons_self _ _)]
  unfold pyStrip
  rw [hdrop t h, hdrop t.reverse (fun c hc => h c (List.mem_reverse.1 hc)),
    List.reverse_reverse]

/-- State invariant for the wrapping loops: all flushed lines fit and are
non-empty, and the accumulator fits (or is empty). -/
def GoodSt (μ : List Char → ℚ) (maxW : ℚ) (st : List (List Char) × List Char) :
    Prop :=
  (∀ l ∈ st.1, μ l ≤ maxW ∧ l ≠ []) ∧ (st.2 = [] ∨ μ st.2 ≤ maxW)

theorem goodSt_charStep {μ : List Char → ℚ} {maxW : ℚ}
    {st : List (List Char) × List Char} {ch : Char}
    (hst : GoodSt μ maxW st) (hch : μ [ch] ≤ maxW) :
    GoodSt μ maxW (charStep μ maxW st ch) := by
  obtain ⟨l, sub⟩ := st
  obtain ⟨hl, hsub⟩ := hst
  simp only [charStep]
  split_ifs with h1 h2
  · exact ⟨hl, Or.inr h1⟩
  · exact ⟨hl, Or.inr hch⟩
  · refine ⟨?_, Or.inr hch⟩
    intro x hx
    rcases List.mem_append.1 hx with h | h
    · exact hl x h
    · rcases List.mem_singleton.1 h with rfl
      exact ⟨hsub.resolve_left h2, h2⟩

theorem goodSt_charFold {μ : List Char → ℚ} {maxW : ℚ} :
    ∀ (w : List Char) (st : List (List Char) × List Char),
    GoodSt μ maxW st → (∀ c ∈ w, μ [c] ≤ maxW) →
    GoodSt μ maxW (w.foldl (charStep μ maxW) st) := by
  intro w
  induction w with
  | nil => intro st hst _; exact hst
  | cons ch w' ih =>
    intro st hst hw
    rw [List.foldl_cons]
    exact ih _ (goodSt_charStep hst (hw ch (List.mem_cons_self _ _)))
      fun c hc => hw c (List.mem_cons_of_mem _ hc)

theorem goodSt_wordStep {μ : List Char → ℚ} {maxW : ℚ}
    {st : List (List Char) × List Char} {w : List Char}
    (hst : GoodSt μ maxW st) (hw : ∀ c ∈ w, μ [c] ≤ maxW) :
    GoodSt μ maxW (wordStep μ maxW st w) := by
  obtain ⟨l, cur⟩ := st
  obtain ⟨hl, hcur⟩ := hst
  have hl1 : ∀ x ∈ l ++ [cur], ¬cur = [] → μ x ≤ maxW ∧ x ≠ [] := by
    intro x hx hc
    rcases List.mem_append.1 hx with h | h
    · exact hl x h
    · rcases List.mem_singleton.1 h with rfl
      exact ⟨hcur.resolve_left hc, hc⟩
  simp only [wordStep]
  split_ifs with hc h1 h1 h2
  · exact ⟨hl, Or.inr h1⟩
  · exact goodSt_charFold w _ ⟨hl, Or.inl rfl⟩ hw
  · exact ⟨hl, Or.inr h1⟩
  · exact ⟨fun x hx => hl1 x hx hc, Or.inr h2⟩
  · exact goodSt_charFold w _ ⟨fun x hx => hl1 x hx hc, Or.inl rfl⟩ hw

theorem goodSt_wordFold {μ : List Char → ℚ} {maxW : ℚ} :
    ∀ (ws : List (List Char)) (st : List (List Char) × List Char),
    GoodSt μ maxW st → (∀ w ∈ ws, ∀ c ∈ w, μ [c] ≤ maxW) →
    GoodSt μ maxW (ws.foldl (wordStep μ maxW) st) := by
  intro ws
  induction ws with
  | nil => intro st hst _; exact hst
  | cons w ws' ih =>
    intro st hst hws
    rw [List.foldl_cons]
    exact ih _ (goodSt_wordStep hst (hws w (List.mem_cons_self _ _)))
      fun v hv c hc => hws v (List.mem_cons_of_mem _ hv) c hc

/-- Main lemma for C10: when every single character of the input fits, every
line produced by the wrap fits and is non-empty. -/
theorem wrap_lines_ok (μ : List Char → ℚ) (maxW : ℚ) (text : List Char)
    (h : ∀ c ∈ text, μ [c] ≤ maxW) :
    ∀ l ∈ wrap_text_by_width μ maxW text, μ l ≤ maxW ∧ l ≠ [] := by
  intro l hl
  simp only [wrap_text_by_width] at hl
  by_cases hs : pyStrip text = []
  · rw [if_pos hs] at hl
    exact absurd hl (List.not_mem_nil l)
  · rw [if_neg hs] at hl
    have hWords : ∀ w ∈ splitOnSpace text, ∀ c ∈ w, μ [c] ≤ maxW :=
      fun w hw c hc => h c (mem_of_mem_splitOnSpace hw hc)
    have hGood : GoodSt μ maxW
        ((splitOnSpace text).foldl (wordStep μ maxW) ([], [])) :=
      goodSt_wordFold _ _ ⟨fun x hx => absurd hx (List.not_mem_nil x), Or.inl rfl⟩
        hWords
    rcases hGood with ⟨h1g, h2g⟩
    split_ifs at hl with h2
    · exact h1g l hl
    · rcases List.mem_append.1 hl with hh | hh
      · exact h1g l hh
      · rcases List.mem_singleton.1 hh with rfl
        exact ⟨h2g.resolve_left h2, h2⟩

/-- The character-splitting loop loses no characters: flushed lines plus the
pending accumulator always spell out the input processed so far. -/
theorem join_charFold (μ : List Char → ℚ) (maxW : ℚ) :
    ∀ (w : List Char) (st : List (List Char) × List Char),
    (w.foldl (charStep μ maxW) st).1.flatten ++ (w.foldl (charStep μ maxW) st).2
      = st.1.flatten ++ st.2 ++ w := by
  intro w
  induction w with
  | nil => intro st; simp
  | cons ch w' ih =>
    intro st
    obtain ⟨l, sub⟩ := st
    rw [List.foldl_cons]
    have hstep : ∀ st' : List (List Char) × List Char,
        charStep μ maxW (l, sub) ch = st' →
        st'.1.flatten ++ st'.2 = l.flatten ++ sub ++ [ch] := by
      intro st' hst'
      simp only [charStep] at hst'
      split_ifs at hst' with h1 h2
      · subst hst'; simp
      · subst hst'; subst h2; simp
      · subst hst'; simp
    rw [ih]
    have := hstep _ rfl
    rw [this]
    simp

/-- Main lemma for C5 (amended): for input with no whitespace characters
the wrap round-trips — concatenating the produced lines gives back the
input. -/
theorem wrap_join (μ : List Char → ℚ) (maxW : ℚ) (text : List Char)
    (hws : ∀ c ∈ text, isPySpace c = false) :
    (wrap_text_by_width μ maxW text).flatten = text := by
  rcases text_eq : text with _ | ⟨c0, rest⟩
  · rfl
  · rw [← text_eq]
    have hne : text ≠ [] := by rw [text_eq]; exact List.cons_ne_nil _ _
    have hsp : ∀ c ∈ text, c ≠ ' ' := by
      intro c hc he
      have hf := hws c hc
      rw [he] at hf
      simp [isPySpace] at hf
    have hstrip : pyStrip text = text := pyStrip_eq_self hws
    have hsplit : splitOnSpace text = [text] := splitOnSpace_eq_self hsp
    simp only [wrap_text_by_width, hstrip, if_neg hne, hsplit, List.foldl_cons,
      List.foldl_nil]
    by_cases h1 : μ text ≤ maxW
    · have hw : wordStep μ maxW ([], []) text = ([], text) := by
        simp only [wordStep]
        simp [h1]
      rw [hw]
      simp [hne]
    · have hw : wordStep μ maxW ([], []) text =
          text.foldl (charStep μ maxW) ([], []) := by
        simp only [wordStep]
        simp [h1]
      rw [hw]
      have hj := join_charFold μ maxW text ([], [])
      simp only [List.flatten_nil, List.nil_append] at hj
      split_ifs with h2
      · rw [h2] at hj
        simpa using hj
      · rw [List.flatten_append]
        simpa using hj

/-! ## Additive width oracles (for C6)

`pdfmetrics.stringWidth` for a fixed font and size is additive over the
characters of the string; `addWidth cw` is the generic additive oracle
built from per-character widths `cw`. -/

def addWidth (cw : Char → ℚ) (s : List Char) : ℚ := (s.map cw).sum

theorem addWidth_append (cw : Char → ℚ) (s t : List Char) :
    addWidth cw (s ++ t) = addWidth cw s + addWidth cw t := by
  simp [addWidth]

theorem addWidth_nonneg (cw : Char → ℚ) (h0 : ∀ c, 0 ≤ cw c) (s : List Char) :
    0 ≤ addWidth cw s := by
  refine List.sum_nonneg ?_
  intro x hx
  rcases List.mem_map.1 hx with ⟨c, _, rfl⟩
  exact h0 c

/-- If the whole remaining input fits together with the accumulator, the
character loop commits every character. -/
theorem charFold_all_fit (cw : Char → ℚ) (h0 : ∀ c, 0 ≤ cw c) (maxW : ℚ) :
    ∀ (suf pre : List Char) (l : List (List Char)),
    addWidth cw (pre ++ suf) ≤ maxW →
    suf.foldl (charStep (addWidth cw) maxW) (l, pre) = (l, pre ++ suf) := by
  intro suf
  induction suf with
  | nil => intro pre l _; simp
  | cons ch suf' ih =>
    intro pre l hfit
    rw [List.foldl_cons]
    have hsplit : addWidth cw (pre ++ ch :: suf')
        = addWidth cw (pre ++ [ch]) + addWidth cw suf' := by
      rw [show pre ++ ch :: suf' = (pre ++ [ch]) ++ suf' by simp, addWidth_append]
    have hch : addWidth cw (pre ++ [ch]) ≤ maxW := by
      have hpos := addWidth_nonneg cw h0 suf'
      rw [hsplit] at hfit
      linarith
    have hstep : charStep (addWidth cw) maxW (l, pre) ch = (l, pre ++ [ch]) := by
      simp only [charStep, if_pos hch]
    rw [hstep, ih (pre ++ [ch]) l (by rw [show (pre ++ [ch]) ++ suf' = pre ++ ch :: suf' by simp]; exact hfit)]
    simp

/-- Main lemma for C6 (amended): on whitespace-free input with an additive
nonnegative width oracle, the source's wrap agrees with pure
character-level wrapping.  (On inputs with spaces they differ — the source
wraps at word boundaries first.) -/
theorem wrap_eq_char_level (cw : Char → ℚ) (h0 : ∀ c, 0 ≤ cw c) (maxW : ℚ)
    (text : List Char) (hws : ∀ c ∈ text, isPySpace c = false) :
    wrap_text_by_width (addWidth cw) maxW text =
      char_level_wrap_spec (addWidth cw) maxW text := by
  have hspec : char_level_wrap_spec (addWidth cw) maxW text =
      (if (text.foldl (charStep (addWidth cw) maxW) ([], [])).2 = []
       then (text.foldl (charStep (addWidth cw) maxW) ([], [])).1
       else (text.foldl (charStep (addWidth cw) maxW) ([], [])).1
         ++ [(text.foldl (charStep (addWidth cw) maxW) ([], [])).2]) := rfl
  rcases text_eq : text with _ | ⟨c0, rest⟩
  · rfl
  · rw [← text_eq]
    have hne : text ≠ [] := by rw [text_eq]; exact List.cons_ne_nil _ _
    have hsp : ∀ c ∈ text, c ≠ ' ' := by
      intro c hc he
      have hf := hws c hc
      rw [he] at hf
      simp [isPySpace] at hf
    have hstrip : pyStrip text = text := pyStrip_eq_self hws
    have hsplit : splitOnSpace text = [text] := splitOnSpace_eq_self hsp
    simp only [wrap_text_by_width, hstrip, if_neg hne, hsplit, List.foldl_cons,
      List.foldl_nil]
    by_cases h1 : addWidth cw text ≤ maxW
    · have hw : wordStep (addWidth cw) maxW ([], []) text = ([], text) := by
        simp only [wordStep]
        simp [h1]
      have hf : text.foldl (charStep (addWidth cw) maxW) ([], []) = ([], text) := by
        have := charFold_all_fit cw h0 maxW text [] [] (by simpa using h1)
        simpa using this
      rw [hspec, hf, hw]
    · have hw : wordStep (addWidth cw) maxW ([], []) text =
          text.foldl (charStep (addWidth cw) maxW) ([], []) := by
        simp only [wordStep]
        simp [h1]
      rw [hspec, hw]

/-! ## Claims C5, C6, C10 -/

/-- C10: under the precondition that every single character of the input
text, measured alone, fits within `max_width`, every line returned by the
wrap function has measured width ≤ `max_width` (the over-wide-line case is
unreachable), and every returned line is a non-empty string. -/
theorem C10_wrap_lines_fit_and_nonempty (μ : List Char → ℚ) (maxW : ℚ)
    (text : List Char) (h : ∀ c ∈ text, μ [c] ≤ maxW) :
    ∀ l ∈ wrap_text_by_width μ maxW text, μ l ≤ maxW ∧ l ≠ [] :=
  wrap_lines_ok μ maxW text h

theorem C10_wrap_lines_fit_and_nonempty_witness :
    (∀ c ∈ "ab cd".toList, addWidth (fun _ => 1) [c] ≤ 3) ∧
    (wrap_text_by_width (addWidth fun _ => 1) 3 "ab cd".toList
      = ["ab".toList, "cd".toList]) ∧
    ∀ l ∈ wrap_text_by_width (addWidth fun _ => 1) 3 "ab cd".toList,
      addWidth (fun _ => 1) l ≤ 3 ∧ l ≠ [] :=
  ⟨by with_unfolding_all decide, by with_unfolding_all decide,
   C10_wrap_lines_fit_and_nonempty (addWidth fun _ => 1) 3 "ab cd".toList
     (by with_unfolding_all decide)⟩

/-- C5 (counterexample): for the text `" "` (one space) the wrap returns no
lines at all (the `strip()` guard), so concatenating the returned lines
yields `""`, not `" "` — a character is dropped, refuting the claim "for
every string text and every `max_width`, concatenating the lines returned
by the wrap function reproduces text exactly". -/
theorem C5_cx_space_dropped :
    wrap_text_by_width (addWidth fun _ => 1) 100 " ".toList = [] ∧
    (wrap_text_by_width (addWidth fun _ => 1) 100 " ".toList).flatten
      ≠ " ".toList := by
  with_unfolding_all decide

/-- C5 (amended): for every width oracle and every `max_width`, for every
text containing no (Python) whitespace character, concatenating the lines
returned by the wrap function reproduces `text` exactly — no characters
dropped or duplicated.  (With whitespace present the function drops
characters: separator spaces are consumed at wrap points and by `strip()`.) -/
theorem C5_roundtrip_on_whitespace_free (μ : List Char → ℚ) (maxW : ℚ)
    (text : List Char) (hws : ∀ c ∈ text, isPySpace c = false) :
    (wrap_text_by_width μ maxW text).flatten = text :=
  wrap_join μ maxW text hws

theorem C5_roundtrip_on_whitespace_free_witness :
    (∀ c ∈ "abcde".toList, isPySpace c = false) ∧
    (wrap_text_by_width (addWidth fun _ => 1) 2 "abcde".toList).flatten
      = "abcde".toList :=
  ⟨by with_unfolding_all decide,
   C5_roundtrip_on_whitespace_free (addWidth fun _ => 1) 2 "abcde".toList
     (by with_unfolding_all decide)⟩

/-- C6 (counterexample): with unit character widths and `max_width = 3`,
`"aa bb"` wraps to `["aa", "bb"]` — broken at the word boundary — whereas
pure character-level wrapping (the spec's reference algorithm,
`char_level_wrap_spec`) yields `["aa ", "bb"]`.  The default behavior of
`wrap_text_by_width` is therefore word-boundary-first wrapping, not pure
character-level wrapping. -/
theorem C6_cx_word_boundary_first :
    wrap_text_by_width (addWidth fun _ => 1) 3 "aa bb".toList
      = ["aa".toList, "bb".toList] ∧
    char_level_wrap_spec (addWidth fun _ => 1) 3 "aa bb".toList
      = ["aa ".toList, "bb".toList] ∧
    wrap_text_by_width (addWidth fun _ => 1) 3 "aa bb".toList
      ≠ char_level_wrap_spec (addWidth fun _ => 1) 3 "aa bb".toList := by
  with_unfolding_all decide

/-- C6 (amended): the wrap function is word-boundary-first with
character-level fallback; pure character-level processing describes it only
within a single over-long word.  Precisely: for an additive, nonnegative
width oracle it coincides with the spec's pure character-level algorithm on
every whitespace-free input (and differs on inputs with spaces — see the
counterexample). -/
theorem C6_char_level_only_on_spacefree (cw : Char → ℚ) (h0 : ∀ c, 0 ≤ cw c)
    (maxW : ℚ) (text : List Char) (hws : ∀ c ∈ text, isPySpace c = false) :
    wrap_text_by_width (addWidth cw) maxW text
      = char_level_wrap_spec (addWidth cw) maxW text :=
  wrap_eq_char_level cw h0 maxW text hws

theorem C6_char_level_only_on_spacefree_witness :
    (∀ _c : Char, (0 : ℚ) ≤ 1) ∧ (∀ c ∈ "abcde".toList, isPySpace c = false) ∧
    wrap_text_by_width (addWidth fun _ => 1) 2 "abcde".toList
      = char_level_wrap_spec (addWidth fun _ => 1) 2 "abcde".toList :=
  ⟨fun _ => by norm_num, by with_unfolding_all decide,
   C6_char_level_only_on_spacefree (fun _ => 1) (fun _ => by norm_num) 2
     "abcde".toList (by with_unfolding_all decide)⟩

/-! ## Claim C4: the two documents make identical placement decisions

The quiz-sheet and answer-sheet passes compute the same wrapped lines, the
same `needed_space` and test the same overflow conditions; they differ only
in the commands emitted.  The placement observables — final index, final
cursor, unplaced remainder of each column pass, and the final page count —
are proved equal. -/

theorem placeLeftAns_eq_test (cfg : Config) : ∀ (idx : ℕ) (y : ℚ)
    (items : List WordPair),
    (placeLeftAns cfg idx y items).2 = (placeLeftTest cfg idx y items).2 := by
  intro idx y items
  induction items generalizing idx y with
  | nil => rfl
  | cons p rest ih =>
    simp only [placeLeftAns, placeLeftTest]
    split_ifs with h
    · rfl
    · exact ih (idx + 1) (y - neededL cfg p)

theorem placeRightAns_eq_test (cfg : Config) : ∀ (idx : ℕ) (y : ℚ)
    (items : List WordPair),
    (placeRightAns cfg idx y items).2 = (placeRightTest cfg idx y items).2 := by
  intro idx y items
  induction items generalizing idx y with
  | nil => rfl
  | cons p rest ih =>
    simp only [placeRightAns, placeRightTest]
    split_ifs with h
    · rfl
    · exact ih (idx + 1) (y - neededR cfg p)

theorem answer_loop_eq_test_loop (cfg : Config) (label : Option (List Char)) :
    ∀ (fuel idx page_no : ℕ) (items : List WordPair),
    (create_answer_loop cfg label idx page_no items fuel).map (fun r => r.2)
      = (create_test_loop cfg label idx page_no items fuel).map (fun r => r.2) := by
  intro fuel
  induction fuel with
  | zero =>
    intro idx pg items
    cases items <;> rfl
  | succ f ih =>
    intro idx pg items
    cases items with
    | nil => rfl
    | cons p rest =>
      simp only [create_answer_loop, create_test_loop]
      rw [placeLeftAns_eq_test cfg idx cfg.topY (p :: rest)]
      set L := placeLeftTest cfg idx cfg.topY (p :: rest) with hLdef
      rw [placeRightAns_eq_test cfg L.2.1 cfg.topY L.2.2.2]
      set R := placeRightTest cfg L.2.1 cfg.topY L.2.2.2 with hRdef
      by_cases hrest : R.2.2.2 = []
      · rw [if_pos hrest, if_pos hrest]
        rfl
      · rw [if_neg hrest, if_neg hrest]
        have hih := ih R.2.1 (pg + 1) R.2.2.2
        rcases ha : create_answer_loop cfg label R.2.1 (pg + 1) R.2.2.2 f
            with _ | st1 <;>
          rcases ht : create_test_loop cfg label R.2.1 (pg + 1) R.2.2.2 f
            with _ | st2 <;>
          rw [ha, ht] at hih <;> simp_all

/-- C4: for every geometry, width oracle, item list, requested count and
fuel, the quiz-sheet pass and the answer-sheet pass make identical
placement decisions: each left/right column pass consumes the same items
with the same final index and cursor, and the two documents have the same
final page count (and time out on the same fuel). -/
theorem C4_identical_placement (cfg : Config) (label : Option (List Char)) :
    (∀ (idx : ℕ) (y : ℚ) (items : List WordPair),
      (placeLeftAns cfg idx y items).2 = (placeLeftTest cfg idx y items).2) ∧
    (∀ (idx : ℕ) (y : ℚ) (items : List WordPair),
      (placeRightAns cfg idx y items).2 = (placeRightTest cfg idx y items).2) ∧
    ∀ (word_pairs : List WordPair) (num_questions fuel : ℕ),
      (create_answer_pdf cfg word_pairs num_questions label fuel).map (fun r => r.2)
        = (create_test_pdf cfg word_pairs num_questions label fuel).map (fun r => r.2) :=
  ⟨placeLeftAns_eq_test cfg, placeRightAns_eq_test cfg,
   fun wp n fuel => answer_loop_eq_test_loop cfg label fuel 0 1
     (wp.take (min n wp.length))⟩

/-! ## Claim C1: the footer text -/

/-- C1 (code_bug evaluation): concrete single-item runs of both documents.
The only footer command drawn reads `"Page 1"`, not `"Page 1 / 1"`: the
source computes an approximate total-page count in `create_test_pdf` and
discards it, drawing `f"Page {page_no}"` with no `" / {total}"` part.  The
claimed footer format `Page <n> / <total>` (and in particular
`Page {total_pages} / {total_pages}` on the final page) is never emitted. -/
theorem C1_footer_lacks_total :
    (create_test_pdf toyCfg [⟨"a".toList, "b".toList, true⟩] 1 none 2).map
      (fun r => (footerTexts toyCfg r.1, r.2)) = some (["Page 1".toList], 1) ∧
    "Page 1".toList ≠ "Page 1 / 1".toList ∧
    (create_answer_pdf toyCfg [⟨"a".toList, "b".toList, true⟩] 1 none 2).map
      (fun r => footerTexts toyCfg r.1) = some ["Page 1".toList] := by
  with_unfolding_all decide

/-! ## Claim C7: empty item sequence -/

/-- C7 (counterexample): on an empty item sequence the generator returns at
once with an EMPTY command stream: no division is reached and the final
page number is 1, but no footer command is drawn at all — the claim's
"footer is still present and well-formed" fails (the body and the footer
are both absent; reportlab itself still emits one blank page on save). -/
theorem C7_cx_empty_stream_has_no_footer :
    create_test_pdf (defaultConfig fun _ => 0) [] 60 none 1 = some ([], 1) ∧
    footerTexts (defaultConfig fun _ => 0) [] = [] := by
  exact ⟨rfl, rfl⟩

/-- C7 (amended): for every geometry and any fuel, a run over an empty item
sequence — no pairs, or a requested count of zero — terminates immediately
(no crash, no division executed) with final page number 1 and an empty
command stream (empty body, but also no footer).  The placement
automaton's page count of the empty sequence is 1. -/
theorem C7_empty_terminates_one_page (cfg : Config) (label : Option (List Char)) :
    (∀ n fuel, create_test_pdf cfg [] n label fuel = some ([], 1)) ∧
    (∀ wp fuel, create_test_pdf cfg wp 0 label fuel = some ([], 1)) ∧
    (∀ n fuel, create_answer_pdf cfg [] n label fuel = some ([], 1)) ∧
    (∀ wp fuel, create_answer_pdf cfg wp 0 label fuel = some ([], 1)) ∧
    count_pages cfg [] = 1 := by
  refine ⟨fun n fuel => ?_, fun wp fuel => ?_, fun n fuel => ?_,
    fun wp fuel => ?_, rfl⟩ <;>
    simp [create_test_pdf, create_answer_pdf, create_test_loop,
      create_answer_loop]

/-! ## Claim C2: column assignment policy -/

/-- C2 (counterexample): a single item with `front_is_shown = false` and
both column cursors fresh (equal remaining room, so the claimed fallback
does not apply): the claimed type-preference policy puts it in the RIGHT
column, but the code draws its item number at `num_x1` — the LEFT column —
and draws nothing at `num_x2`.  Column assignment ignores the flag. -/
theorem C2_cx_hidden_item_goes_left :
    (create_test_pdf toyCfg [⟨"a".toList, "b".toList, false⟩] 1 none 2).map
      (fun r => numberXs r.1) = some [toyCfg.num_x1] ∧
    toyCfg.num_x1 ≠ toyCfg.num_x2 := by
  with_unfolding_all decide

/-- C2 (amended): column assignment is left-first fill, independent of
`front_is_shown`: whenever the current item fits at the left cursor, the
left pass places it there (its number is drawn at `num_x1`), whatever its
flag; only when an item does not fit does placement move to the right
column, and then to a new page.  The claim's concrete scenario does hold:
with column capacity 2, the five items `[shown,shown,hidden,hidden,shown]`
get their numbers at x-positions [left,left,right,right,left], the fifth
item landing on page 2 of a 2-page document. -/
theorem C2_left_first_fill :
    (∀ (cfg : Config) (idx : ℕ) (y : ℚ) (p : WordPair) (rest : List WordPair),
      cfg.bottom_reserved ≤ y - neededL cfg p →
      (placeLeftTest cfg idx y (p :: rest)).1.head?
        = some (Cmd.drawString cfg.num_x1 y (numberText idx) PdfColor.black)) ∧
    (create_test_pdf toyCfg items5 5 none 6).map
      (fun r => (numberXs r.1, r.2))
      = some ([toyCfg.num_x1, toyCfg.num_x1, toyCfg.num_x2, toyCfg.num_x2,
               toyCfg.num_x1], 2) := by
  constructor
  · intro cfg idx y p rest hfit
    simp only [placeLeftTest]
    rw [if_neg (not_lt.2 hfit)]
    simp [itemCmds]
  · with_unfolding_all decide

theorem C2_left_first_fill_witness :
    (toyCfg.bottom_reserved ≤ 90 - neededL toyCfg ⟨"a".toList, "b".toList, false⟩) ∧
    (placeLeftTest toyCfg 0 90 [⟨"a".toList, "b".toList, false⟩]).1.head?
      = some (Cmd.drawString toyCfg.num_x1 90 (numberText 0) PdfColor.black) :=
  ⟨by with_unfolding_all decide,
   C2_left_first_fill.1 toyCfg 0 90 ⟨"a".toList, "b".toList, false⟩ []
     (by with_unfolding_all decide)⟩

/-! ## Claim C3: non-termination on an oversized item -/

theorem badCfg_left_stuck (idx : ℕ) :
    placeLeftTest badCfg idx badCfg.topY [badItem]
      = ([], idx, badCfg.topY, [badItem]) := by
  simp only [placeLeftTest]
  rw [if_pos (by with_unfolding_all decide :
    badCfg.topY - neededL badCfg badItem < badCfg.bottom_reserved)]

theorem badCfg_right_stuck (idx : ℕ) :
    placeRightTest badCfg idx badCfg.topY [badItem]
      = ([], idx, badCfg.topY, [badItem]) := by
  simp only [placeRightTest]
  rw [if_pos (by with_unfolding_all decide :
    badCfg.topY - neededR badCfg badItem < badCfg.bottom_reserved)]

theorem badCfg_test_loop_none : ∀ (fuel idx pg : ℕ),
    create_test_loop badCfg none idx pg [badItem] fuel = none := by
  intro fuel
  induction fuel with
  | zero => intro idx pg; rfl
  | succ f ih =>
    intro idx pg
    simp only [create_test_loop, badCfg_left_stuck, badCfg_right_stuck]
    rw [if_neg (List.cons_ne_nil badItem [])]
    rw [ih idx (pg + 1)]

theorem badCfg_test_pdf_none (fuel : ℕ) :
    create_test_pdf badCfg [badItem] 1 none fuel = none := by
  simp [create_test_pdf, badCfg_test_loop_none]

theorem badCfg_answer_pdf_none (fuel : ℕ) :
    create_answer_pdf badCfg [badItem] 1 none fuel = none := by
  have h := answer_loop_eq_test_loop badCfg none fuel 0 1 [badItem]
  rw [badCfg_test_loop_none fuel 0 1] at h
  simp only [Option.map_none'] at h
  have h2 := Option.map_eq_none'.1 h
  simpa [create_answer_pdf] using h2

/-- C3 (counterexample): generation does NOT terminate for every supported
input.  `badItem`'s 8-character shown text wraps to 4 lines in `badCfg`'s
2-character-wide columns, needing 98 points in an 80-point column — the
item fits in no fresh column, so the page loop never advances the index:
for EVERY fuel both `create_test_pdf` and `create_answer_pdf` fail to
produce a document (the source's `while` loop runs forever, exactly the
hypothesis the claim names). -/
theorem C3_cx_oversized_item_diverges :
    (¬ TestTerminates badCfg [badItem] 1 none) ∧
    (¬ AnswerTerminates badCfg [badItem] 1 none) ∧
    ¬ Fits badCfg badItem := by
  refine ⟨?_, ?_, by with_unfolding_all decide⟩
  · rintro ⟨fuel, r, hr⟩
    rw [badCfg_test_pdf_none fuel] at hr
    exact Option.noConfusion hr
  · rintro ⟨fuel, r, hr⟩
    rw [badCfg_answer_pdf_none fuel] at hr
    exact Option.noConfusion hr

/-! ## The placement automaton matches the page loops

Characterization of the column passes in terms of `placeItem`, leading to:
for runs in which every item fits some fresh column, the loops terminate
(given fuel beyond the item count) and their final page number is
`count_pages`. -/

theorem placeLeftTest_split (cfg : Config) (pg : ℕ) :
    ∀ (items : List WordPair) (idx : ℕ) (y : ℚ),
    ∃ t : List WordPair,
      items = t ++ (placeLeftTest cfg idx y items).2.2.2 ∧
      List.foldl (placeItem cfg) ⟨pg, Col.left, y⟩ t
        = ⟨pg, Col.left, (placeLeftTest cfg idx y items).2.2.1⟩ := by
  intro items
  induction items with
  | nil => intro idx y; exact ⟨[], rfl, rfl⟩
  | cons p rest ih =>
    intro idx y
    by_cases h : y - neededL cfg p < cfg.bottom_reserved
    · refine ⟨[], ?_, ?_⟩ <;> simp [placeLeftTest, if_pos h]
    · obtain ⟨t, ht1, ht2⟩ := ih (idx + 1) (y - neededL cfg p)
      have hplace : placeItem cfg ⟨pg, Col.left, y⟩ p
          = ⟨pg, Col.left, y - neededL cfg p⟩ := by
        simp only [placeItem]
        rw [if_pos (not_lt.1 h)]
      refine ⟨p :: t, ?_, ?_⟩
      · simp only [placeLeftTest, if_neg h]
        simpa using ht1
      · simp only [placeLeftTest, if_neg h, List.foldl_cons]
        rw [hplace]
        exact ht2

theorem placeRightTest_split (cfg : Config) (pg : ℕ) :
    ∀ (items : List WordPair) (idx : ℕ) (y : ℚ),
    ∃ t : List WordPair,
      items = t ++ (placeRightTest cfg idx y items).2.2.2 ∧
      List.foldl (placeItem cfg) ⟨pg, Col.right, y⟩ t
        = ⟨pg, Col.right, (placeRightTest cfg idx y items).2.2.1⟩ := by
  intro items
  induction items with
  | nil => intro idx y; exact ⟨[], rfl, rfl⟩
  | cons p rest ih =>
    intro idx y
    by_cases h : y - neededR cfg p < cfg.bottom_reserved
    · refine ⟨[], ?_, ?_⟩ <;> simp [placeRightTest, if_pos h]
    · obtain ⟨t, ht1, ht2⟩ := ih (idx + 1) (y - neededR cfg p)
      have hplace : placeItem cfg ⟨pg, Col.right, y⟩ p
          = ⟨pg, Col.right, y - neededR cfg p⟩ := by
        simp only [placeItem]
        rw [if_pos (not_lt.1 h)]
      refine ⟨p :: t, ?_, ?_⟩
      · simp only [placeRightTest, if_neg h]
        simpa using ht1
      · simp only [placeRightTest, if_neg h, List.foldl_cons]
        rw [hplace]
        exact ht2

theorem placeLeftTest_fail_head (cfg : Config) :
    ∀ (items : List WordPair) (idx : ℕ) (y : ℚ) (q : WordPair)
      (rest2 : List WordPair),
    (placeLeftTest cfg idx y items).2.2.2 = q :: rest2 →
    (placeLeftTest cfg idx y items).2.2.1 - neededL cfg q
      < cfg.bottom_reserved := by
  intro items
  induction items with
  | nil => intro idx y q rest2 h; exact absurd h (List.cons_ne_nil q rest2).symm
  | cons p rest ih =>
    intro idx y q rest2 h
    by_cases hfit : y - neededL cfg p < cfg.bottom_reserved
    · simp only [placeLeftTest, if_pos hfit] at h ⊢
      rcases h with ⟨rfl, rfl⟩
      exact hfit
    · simp only [placeLeftTest, if_neg hfit] at h ⊢
      exact ih (idx + 1) (y - neededL cfg p) q rest2 h

theorem placeRightTest_fail_head (cfg : Config) :
    ∀ (items : List WordPair) (idx : ℕ) (y : ℚ) (q : WordPair)
      (rest2 : List WordPair),
    (placeRightTest cfg idx y items).2.2.2 = q :: rest2 →
    (placeRightTest cfg idx y items).2.2.1 - neededR cfg q
      < cfg.bottom_reserved := by
  intro items
  induction items with
  | nil => intro idx y q rest2 h; exact absurd h (List.cons_ne_nil q rest2).symm
  | cons p rest ih =>
    intro idx y q rest2 h
    by_cases hfit : y - neededR cfg p < cfg.bottom_reserved
    · simp only [placeRightTest, if_pos hfit] at h ⊢
      rcases h with ⟨rfl, rfl⟩
      exact hfit
    · simp only [placeRightTest, if_neg hfit] at h ⊢
      exact ih (idx + 1) (y - neededR cfg p) q rest2 h

theorem placeLeftTest_split' (cfg : Config) (pg : ℕ) (items : List WordPair)
    (idx : ℕ) (y : ℚ) (c : List Cmd) (i' : ℕ) (y' : ℚ) (rest : List WordPair)
    (h : placeLeftTest cfg idx y items = (c, i', y', rest)) :
    ∃ t : List WordPair, items = t ++ rest ∧
      List.foldl (placeItem cfg) ⟨pg, Col.left, y⟩ t = ⟨pg, Col.left, y'⟩ := by
  obtain ⟨t, h1, h2⟩ := placeLeftTest_split cfg pg items idx y
  rw [h] at h1 h2
  exact ⟨t, h1, h2⟩

theorem placeRightTest_split' (cfg : Config) (pg : ℕ) (items : List WordPair)
    (idx : ℕ) (y : ℚ) (c : List Cmd) (i' : ℕ) (y' : ℚ) (rest : List WordPair)
    (h : placeRightTest cfg idx y items = (c, i', y', rest)) :
    ∃ t : List WordPair, items = t ++ rest ∧
      List.foldl (placeItem cfg) ⟨pg, Col.right, y⟩ t = ⟨pg, Col.right, y'⟩ := by
  obtain ⟨t, h1, h2⟩ := placeRightTest_split cfg pg items idx y
  rw [h] at h1 h2
  exact ⟨t, h1, h2⟩

theorem placeLeftTest_fail_head' (cfg : Config) (items : List WordPair)
    (idx : ℕ) (y : ℚ) (c : List Cmd) (i' : ℕ) (y' : ℚ) (q : WordPair)
    (rest2 : List WordPair)
    (h : placeLeftTest cfg idx y items = (c, i', y', q :: rest2)) :
    y' - neededL cfg q < cfg.bottom_reserved := by
  have := placeLeftTest_fail_head cfg items idx y q rest2 (by rw [h])
  rwa [h] at this

theorem placeRightTest_fail_head' (cfg : Config) (items : List WordPair)
    (idx : ℕ) (y : ℚ) (c : List Cmd) (i' : ℕ) (y' : ℚ) (q : WordPair)
    (rest2 : List WordPair)
    (h : placeRightTest cfg idx y items = (c, i', y', q :: rest2)) :
    y' - neededR cfg q < cfg.bottom_reserved := by
  have := placeRightTest_fail_head cfg items idx y q rest2 (by rw [h])
  rwa [h] at this

/-- One page of the loop in automaton terms: the fold over the whole item
list from a fresh page either finishes on this page (page number `pg`), or
continues as the fold over the unplaced remainder from the next fresh page,
the remainder being strictly shorter. -/
theorem page_step_fold (cfg : Config) (items : List WordPair)
    (idx i1 i2 pg : ℕ) (y1 y2 : ℚ) (c1 c2 : List Cmd)
    (rest1 rest2 : List WordPair)
    (hL : placeLeftTest cfg idx cfg.topY items = (c1, i1, y1, rest1))
    (hR : placeRightTest cfg i1 cfg.topY rest1 = (c2, i2, y2, rest2))
    (hFits : ∀ p ∈ items, Fits cfg p) :
    (rest2 = [] ∧
      (List.foldl (placeItem cfg) (⟨pg, Col.left, cfg.topY⟩ : SimState)
        items).page = pg)
    ∨ (rest2 ≠ [] ∧ rest2.length < items.length ∧ (∀ x ∈ rest2, x ∈ items) ∧
       List.foldl (placeItem cfg) (⟨pg, Col.left, cfg.topY⟩ : SimState) items
         = List.foldl (placeItem cfg)
             (⟨pg + 1, Col.left, cfg.topY⟩ : SimState) rest2) := by
  obtain ⟨t1, hsplit1, hfold1⟩ :=
    placeLeftTest_split' cfg pg items idx cfg.topY c1 i1 y1 rest1 hL
  rcases hrest1 : rest1 with _ | ⟨q, rest1'⟩
  · -- the left pass placed everything
    subst hrest1
    have hRv : placeRightTest cfg i1 cfg.topY ([] : List WordPair)
        = ([], i1, cfg.topY, []) := rfl
    rw [hRv] at hR
    simp only [Prod.mk.injEq] at hR
    obtain ⟨-, -, -, hr2⟩ := hR
    refine Or.inl ⟨hr2.symm ▸ rfl, ?_⟩
    rw [hsplit1, List.append_nil, hfold1]
  · subst hrest1
    have hfailq : y1 - neededL cfg q < cfg.bottom_reserved :=
      placeLeftTest_fail_head' cfg items idx cfg.topY c1 i1 y1 q rest1' hL
    have hqmem : q ∈ items := by
      rw [hsplit1]
      exact List.mem_append_right t1 (List.mem_cons_self _ _)
    by_cases hfitR : cfg.topY - neededR cfg q < cfg.bottom_reserved
    · -- q fits in NO fresh column: page break, retried left on the fresh page
      have hfitL : cfg.bottom_reserved ≤ cfg.topY - neededL cfg q := by
        rcases hFits q hqmem with h | h
        · exact h
        · exact absurd h (not_le.2 hfitR)
      have hRv : placeRightTest cfg i1 cfg.topY (q :: rest1')
          = ([], i1, cfg.topY, q :: rest1') := by
        simp only [placeRightTest]
        rw [if_pos hfitR]
      rw [hRv] at hR
      simp only [Prod.mk.injEq] at hR
      obtain ⟨-, -, -, hr2⟩ := hR
      subst hr2
      have ht1ne : t1 ≠ [] := by
        rintro rfl
        have hy1 : y1 = cfg.topY := by
          have := hfold1
          simp only [List.foldl_nil, SimState.mk.injEq] at this
          exact this.2.2.symm
        rw [hy1] at hfailq
        exact absurd hfitL (not_le.2 hfailq)
      refine Or.inr ⟨List.cons_ne_nil q rest1', ?_, ?_, ?_⟩
      · rw [hsplit1, List.length_append]
        have : 0 < t1.length := List.length_pos.2 ht1ne
        omega
      · intro x hx
        rw [hsplit1]
        exact List.mem_append_right t1 hx
      · rw [hsplit1, List.foldl_append, hfold1, List.foldl_cons,
          List.foldl_cons]
        have hplace1 : placeItem cfg ⟨pg, Col.left, y1⟩ q
            = ⟨pg + 1, Col.left, cfg.topY - neededL cfg q⟩ := by
          simp only [placeItem]
          rw [if_neg (not_le.2 hfailq), if_neg (not_le.2 hfitR)]
        have hplace2 : placeItem cfg ⟨pg + 1, Col.left, cfg.topY⟩ q
            = ⟨pg + 1, Col.left, cfg.topY - neededL cfg q⟩ := by
          simp only [placeItem]
          rw [if_pos hfitL]
        rw [hplace1, hplace2]
    · -- q fits the fresh right column: the right pass consumes it
      push_neg at hfitR
      rcases hRr : placeRightTest cfg (i1 + 1) (cfg.topY - neededR cfg q) rest1'
        with ⟨c2', i2', y2', rest2'⟩
      have hRv : placeRightTest cfg i1 cfg.topY (q :: rest1')
          = (itemCmds cfg cfg.num_x2 cfg.text_x2 cfg.under_x2 i1 cfg.topY
              (wrappedLines cfg cfg.text_max_w2 q) ++ c2', i2', y2', rest2') := by
        simp only [placeRightTest]
        rw [if_neg (not_lt.2 hfitR), hRr]
      rw [hRv] at hR
      simp only [Prod.mk.injEq] at hR
      obtain ⟨-, -, hy2, hr2⟩ := hR
      subst hr2
      obtain ⟨t2, hsplit2, hfold2⟩ := placeRightTest_split' cfg pg rest1'
        (i1 + 1) (cfg.topY - neededR cfg q) c2' i2' y2' rest2' hRr
      have hplaceq : placeItem cfg ⟨pg, Col.left, y1⟩ q
          = ⟨pg, Col.right, cfg.topY - neededR cfg q⟩ := by
        simp only [placeItem]
        rw [if_neg (not_le.2 hfailq), if_pos hfitR]
      have hchain : List.foldl (placeItem cfg)
          (⟨pg, Col.left, cfg.topY⟩ : SimState) items
          = List.foldl (placeItem cfg) (⟨pg, Col.right, y2'⟩ : SimState) rest2' := by
        rw [hsplit1, List.foldl_append, hfold1, List.foldl_cons, hplaceq,
          hsplit2, List.foldl_append, hfold2]
      rcases hrest2' : rest2' with _ | ⟨r, rest2''⟩
      · refine Or.inl ⟨rfl, ?_⟩
        rw [hchain, hrest2']
        rfl
      · have hfailr : y2' - neededR cfg r < cfg.bottom_reserved := by
          refine placeRightTest_fail_head' cfg rest1' (i1 + 1)
            (cfg.topY - neededR cfg q) c2' i2' y2' r rest2'' ?_
          rw [hRr, hrest2']
        have hrmem : r ∈ items := by
          rw [hsplit1]
          refine List.mem_append_right t1 (List.mem_cons_of_mem q ?_)
          rw [hsplit2, hrest2']
          exact List.mem_append_right t2 (List.mem_cons_self _ _)
        refine Or.inr ⟨List.cons_ne_nil r rest2'', ?_, ?_, ?_⟩
        · simp only [hrest2', hsplit1, hsplit2, List.length_append,
            List.length_cons]
          omega
        · intro x hx
          rw [hsplit1]
          refine List.mem_append_right t1 (List.mem_cons_of_mem q ?_)
          rw [hsplit2, hrest2']
          exact List.mem_append_right t2 hx
        · rw [hchain, hrest2', List.foldl_cons, List.foldl_cons]
          have hpl : placeItem cfg ⟨pg, Col.right, y2'⟩ r
              = placeItem cfg ⟨pg + 1, Col.left, cfg.topY⟩ r := by
            simp only [placeItem]
            rw [if_neg (not_le.2 hfailr)]
            by_cases hfl : cfg.bottom_reserved ≤ cfg.topY - neededL cfg r
            · rw [if_pos hfl, if_pos hfl]
            · have hfr : cfg.bottom_reserved ≤ cfg.topY - neededR cfg r := by
                rcases hFits r hrmem with h | h
                · exact absurd h hfl
                · exact h
              rw [if_neg hfl, if_neg hfl, if_pos hfr]
          rw [hpl]

/-- With every item fitting a fresh column and fuel exceeding the item
count, the quiz-sheet page loop terminates and its final page number is the
placement automaton's fold. -/
theorem test_loop_eq_count (cfg : Config) (label : Option (List Char)) :
    ∀ (fuel : ℕ) (items : List WordPair) (idx pg : ℕ),
    (∀ p ∈ items, Fits cfg p) → items.length < fuel →
    ∃ cmds, create_test_loop cfg label idx pg items fuel
      = some (cmds, (List.foldl (placeItem cfg)
          (⟨pg, Col.left, cfg.topY⟩ : SimState) items).page) := by
  intro fuel
  induction fuel with
  | zero => intro items idx pg _ hlen; omega
  | succ f ih =>
    intro items idx pg hFits hlen
    rcases items with _ | ⟨p, rest⟩
    · exact ⟨[], rfl⟩
    · rcases hL : placeLeftTest cfg idx cfg.topY (p :: rest)
        with ⟨c1, i1, y1, rest1⟩
      rcases hR : placeRightTest cfg i1 cfg.topY rest1
        with ⟨c2, i2, y2, rest2⟩
      have hstep := page_step_fold cfg (p :: rest) idx i1 i2 pg y1 y2 c1 c2
        rest1 rest2 hL hR hFits
      rcases hstep with ⟨hr2, hpage⟩ | ⟨hr2, hlt, hmem, hfold⟩
      · subst hr2
        have hloop : create_test_loop cfg label idx pg (p :: rest) (f + 1)
            = some ((if pg = 1 then headerCmds cfg label else []) ++ c1 ++ c2
                ++ [footerCmd cfg pg], pg) := by
          simp only [create_test_loop, hL, hR]
          simp
        exact ⟨_, by rw [hloop, hpage]⟩
      · obtain ⟨cmds', hrec⟩ := ih rest2 i2 (pg + 1)
          (fun x hx => hFits x (hmem x hx))
          (by simp only [List.length_cons] at hlen hlt; omega)
        have hloop : create_test_loop cfg label idx pg (p :: rest) (f + 1)
            = some ((if pg = 1 then headerCmds cfg label else []) ++ c1 ++ c2
                ++ [footerCmd cfg pg, Cmd.showPage] ++ cmds',
                (List.foldl (placeItem cfg)
                  (⟨pg + 1, Col.left, cfg.topY⟩ : SimState) rest2).page) := by
          simp only [create_test_loop, hL, hR]
          rw [if_neg hr2, hrec]
        exact ⟨_, by rw [hloop, hfold]⟩

/-- `create_test_pdf` terminates (returning the automaton's page count)
whenever every selected item fits a fresh column and the fuel exceeds the
item count. -/
theorem test_pdf_some (cfg : Config) (label : Option (List Char))
    (wp : List WordPair) (n : ℕ) (hFits : ∀ p ∈ wp, Fits cfg p) (fuel : ℕ)
    (hfuel : wp.length < fuel) :
    ∃ cmds, create_test_pdf cfg wp n label fuel
      = some (cmds, count_pages cfg (wp.take (min n wp.length))) := by
  have hsub : ∀ p ∈ wp.take (min n wp.length), Fits cfg p :=
    fun p hp => hFits p (List.take_subset _ _ hp)
  have hlen : (wp.take (min n wp.length)).length < fuel := by
    rw [List.length_take]
    exact lt_of_le_of_lt (min_le_right _ _) hfuel
  exact test_loop_eq_count cfg label fuel _ 0 1 hsub hlen

/-- C3 (amended): generation terminates with all items placed — provided
every selected item fits in at least one fresh column (`Fits`), which holds
throughout the supported range for ordinary vocabulary entries; without
that proviso the loop runs forever (see the counterexample).  Fuel one
beyond the item count suffices: each page places at least one item. -/
theorem C3_terminates_when_items_fit (cfg : Config) (label : Option (List Char))
    (word_pairs : List WordPair) (num_questions : ℕ)
    (hFits : ∀ p ∈ word_pairs, Fits cfg p) :
    (create_test_pdf cfg word_pairs num_questions label
      (word_pairs.length + 1)).isSome = true ∧
    (create_answer_pdf cfg word_pairs num_questions label
      (word_pairs.length + 1)).isSome = true := by
  obtain ⟨cmds, hc⟩ := test_pdf_some cfg label word_pairs num_questions hFits
    (word_pairs.length + 1) (by omega)
  refine ⟨by rw [hc]; rfl, ?_⟩
  have h2 : (create_answer_pdf cfg word_pairs num_questions label
      (word_pairs.length + 1)).map (fun r => r.2)
      = (create_test_pdf cfg word_pairs num_questions label
        (word_pairs.length + 1)).map (fun r => r.2) :=
    answer_loop_eq_test_loop cfg label (word_pairs.length + 1) 0 1
      (word_pairs.take (min num_questions word_pairs.length))
  rw [hc] at h2
  rcases Option.map_eq_some'.1 h2 with ⟨a, ha, -⟩
  rw [ha]
  rfl

theorem C3_terminates_when_items_fit_witness :
    (∀ p ∈ items5, Fits toyCfg p) ∧
    (create_test_pdf toyCfg items5 5 none (items5.length + 1)).isSome = true ∧
    (create_answer_pdf toyCfg items5 5 none (items5.length + 1)).isSome = true :=
  ⟨by with_unfolding_all decide,
   C3_terminates_when_items_fit toyCfg none items5 5
     (by with_unfolding_all decide)⟩

/-! ## Page-count monotonicity (C9)

A state `s` is "no further along" than `t` when `t` is on a later page, or
on the same page in a later column, or in the same column with a cursor at
least as far down.  `placeItem` preserves this order (given cursors within
the page, `y ≤ topY`), and advances every state, so folding a subsequence
never overtakes folding the full sequence. -/

def stateLe (s t : SimState) : Prop :=
  s.page < t.page ∨
  (s.page = t.page ∧
    ((s.col = Col.left ∧ t.col = Col.right) ∨ (s.col = t.col ∧ t.y ≤ s.y)))

theorem stateLe_refl (s : SimState) : stateLe s s :=
  Or.inr ⟨rfl, Or.inr ⟨rfl, le_refl _⟩⟩

theorem stateLe_trans {s t u : SimState} (h1 : stateLe s t)
    (h2 : stateLe t u) : stateLe s u := by
  rcases h1 with h1 | ⟨hp1, hc1⟩ <;> rcases h2 with h2 | ⟨hp2, hc2⟩
  · exact Or.inl (h1.trans h2)
  · exact Or.inl (hp2 ▸ h1)
  · exact Or.inl (hp1 ▸ h2)
  · refine Or.inr ⟨hp1.trans hp2, ?_⟩
    rcases hc1 with ⟨ha1, hb1⟩ | ⟨he1, hy1⟩ <;>
      rcases hc2 with ⟨ha2, hb2⟩ | ⟨he2, hy2⟩
    · rw [hb1] at ha2; cases ha2
    · exact Or.inl ⟨ha1, he2 ▸ hb1⟩
    · exact Or.inl ⟨he1.trans ha2, hb2⟩
    · exact Or.inr ⟨he1.trans he2, hy2.trans hy1⟩

theorem stateLe_page {s t : SimState} (h : stateLe s t) : s.page ≤ t.page := by
  rcases h with h | ⟨h, -⟩
  · exact le_of_lt h
  · exact le_of_eq h

theorem neededSpace_nonneg (cfg : Config) (hv : cfg.Valid) (w : ℚ)
    (p : WordPair) : 0 ≤ neededSpace cfg w p := by
  obtain ⟨h1, h2, h3⟩ := hv
  have hlen : (0 : ℚ) ≤ ((wrappedLines cfg w p).length : ℚ) := by positivity
  have hper : (0 : ℚ) ≤ cfg.perLineH := by
    unfold Config.perLineH
    positivity
  have hblock := mul_nonneg hlen hper
  unfold neededSpace gapAfter
  split_ifs <;> linarith

theorem wf_placeItem (cfg : Config) (hv : cfg.Valid) {s : SimState}
    (hwf : s.y ≤ cfg.topY) (p : WordPair) :
    (placeItem cfg s p).y ≤ cfg.topY := by
  have hL := neededSpace_nonneg cfg hv cfg.text_max_w1 p
  have hR := neededSpace_nonneg cfg hv cfg.text_max_w2 p
  obtain ⟨pg, col, y⟩ := s
  simp only [SimState.y] at hwf  -- projection of the literal state
  cases col <;>
    simp only [placeItem, neededL, neededR] <;>
    split_ifs <;>
    simp only [SimState.y] <;>
    linarith

theorem placeItem_page_ge (cfg : Config) (s : SimState) (p : WordPair) :
    s.page ≤ (placeItem cfg s p).page := by
  obtain ⟨pg, col, y⟩ := s
  cases col <;> simp only [placeItem] <;> split_ifs <;>
    simp only [SimState.page] <;> omega

theorem placeItem_mono (cfg : Config) {s t : SimState}
    (hws : s.y ≤ cfg.topY) (hwt : t.y ≤ cfg.topY) (hst : stateLe s t)
    (p : WordPair) : stateLe (placeItem cfg s p) (placeItem cfg t p) := by
  obtain ⟨ps, cs, ys⟩ := s
  obtain ⟨pt, ct, yt⟩ := t
  simp only [SimState.y] at hws hwt
  simp only [stateLe, SimState.page, SimState.col, SimState.y] at hst
  cases cs <;> cases ct <;>
    simp only [placeItem, SimState.page, SimState.col, SimState.y] <;>
    simp only [stateLe, SimState.page, SimState.col, SimState.y]
  -- case left, left
  · rcases hst with hP | ⟨hpg, hcc⟩
    · by_cases hsl : cfg.bottom_reserved ≤ ys - neededL cfg p
      · rw [if_pos hsl]
        split_ifs <;> exact Or.inl (by simp only [SimState.page]; omega)
      · rw [if_neg hsl]
        by_cases hfR : cfg.bottom_reserved ≤ cfg.topY - neededR cfg p
        · rw [if_pos hfR]
          split_ifs <;> exact Or.inl (by simp only [SimState.page]; omega)
        · rw [if_neg hfR]
          rcases Nat.lt_or_ge (ps + 1) pt with hlt | hge
          · split_ifs <;> exact Or.inl (by simp only [SimState.page]; omega)
          · have heq : ps + 1 = pt := le_antisymm hP hge
            by_cases htl : cfg.bottom_reserved ≤ yt - neededL cfg p
            · rw [if_pos htl]
              exact Or.inr ⟨heq, Or.inr ⟨rfl, by simp only [SimState.y]; linarith⟩⟩
            · rw [if_neg htl, if_neg hfR]
              exact Or.inl (by simp only [SimState.page]; omega)
    · rcases hcc with ⟨-, hbad⟩ | ⟨-, hy⟩
      · exact absurd hbad (by simp)
      · subst hpg
        by_cases htl : cfg.bottom_reserved ≤ yt - neededL cfg p
        · have hsl : cfg.bottom_reserved ≤ ys - neededL cfg p := by linarith
          rw [if_pos hsl, if_pos htl]
          exact Or.inr ⟨rfl, Or.inr ⟨rfl, by simp only [SimState.y]; linarith⟩⟩
        · by_cases hsl : cfg.bottom_reserved ≤ ys - neededL cfg p
          · rw [if_pos hsl, if_neg htl]
            by_cases hfR : cfg.bottom_reserved ≤ cfg.topY - neededR cfg p
            · rw [if_pos hfR]
              exact Or.inr ⟨rfl, Or.inl ⟨rfl, rfl⟩⟩
            · rw [if_neg hfR]
              exact Or.inl (by simp only [SimState.page]; omega)
          · rw [if_neg hsl, if_neg htl]
            by_cases hfR : cfg.bottom_reserved ≤ cfg.topY - neededR cfg p
            · rw [if_pos hfR]
              exact Or.inr ⟨rfl, Or.inr ⟨rfl, le_refl _⟩⟩
            · rw [if_neg hfR]
              exact Or.inr ⟨rfl, Or.inr ⟨rfl, le_refl _⟩⟩
  -- case left, right
  · rcases hst with hP | ⟨hpg, hcc⟩
    · by_cases hsl : cfg.bottom_reserved ≤ ys - neededL cfg p
      · rw [if_pos hsl]
        split_ifs <;> exact Or.inl (by simp only [SimState.page]; omega)
      · rw [if_neg hsl]
        by_cases hfR : cfg.bottom_reserved ≤ cfg.topY - neededR cfg p
        · rw [if_pos hfR]
          split_ifs <;> exact Or.inl (by simp only [SimState.page]; omega)
        · rw [if_neg hfR]
          have htr : ¬ cfg.bottom_reserved ≤ yt - neededR cfg p :=
            fun h => hfR (by linarith)
          rw [if_neg htr]
          split_ifs <;> exact Or.inl (by simp only [SimState.page]; omega)
    · subst hpg
      by_cases hsl : cfg.bottom_reserved ≤ ys - neededL cfg p
      · rw [if_pos hsl]
        by_cases htr : cfg.bottom_reserved ≤ yt - neededR cfg p
        · rw [if_pos htr]
          exact Or.inr ⟨rfl, Or.inl ⟨rfl, rfl⟩⟩
        · rw [if_neg htr]
          split_ifs <;> exact Or.inl (by simp only [SimState.page]; omega)
      · rw [if_neg hsl]
        by_cases hfR : cfg.bottom_reserved ≤ cfg.topY - neededR cfg p
        · rw [if_pos hfR]
          by_cases htr : cfg.bottom_reserved ≤ yt - neededR cfg p
          · rw [if_pos htr]
            exact Or.inr ⟨rfl, Or.inr ⟨rfl, by simp only [SimState.y]; linarith⟩⟩
          · rw [if_neg htr]
            split_ifs <;> exact Or.inl (by simp only [SimState.page]; omega)
        · rw [if_neg hfR]
          have htr : ¬ cfg.bottom_reserved ≤ yt - neededR cfg p :=
            fun h => hfR (by linarith)
          rw [if_neg htr]
          by_cases hfL : cfg.bottom_reserved ≤ cfg.topY - neededL cfg p
          · rw [if_pos hfL]
            exact Or.inr ⟨rfl, Or.inr ⟨rfl, le_refl _⟩⟩
          · rw [if_neg hfL]
            exact Or.inr ⟨rfl, Or.inl ⟨rfl, rfl⟩⟩
  -- case right, left
  · rcases hst with hP | ⟨hpg, hcc⟩
    · by_cases hsr : cfg.bottom_reserved ≤ ys - neededR cfg p
      · rw [if_pos hsr]
        split_ifs <;> exact Or.inl (by simp only [SimState.page]; omega)
      · rw [if_neg hsr]
        by_cases hfL : cfg.bottom_reserved ≤ cfg.topY - neededL cfg p
        · rw [if_pos hfL]
          rcases Nat.lt_or_ge (ps + 1) pt with hlt | hge
          · split_ifs <;> exact Or.inl (by simp only [SimState.page]; omega)
          · have heq : ps + 1 = pt := le_antisymm hP hge
            by_cases htl : cfg.bottom_reserved ≤ yt - neededL cfg p
            · rw [if_pos htl]
              exact Or.inr ⟨heq, Or.inr ⟨rfl, by simp only [SimState.y]; linarith⟩⟩
            · rw [if_neg htl]
              by_cases hfR : cfg.bottom_reserved ≤ cfg.topY - neededR cfg p
              · rw [if_pos hfR]
                exact Or.inr ⟨heq, Or.inl ⟨rfl, rfl⟩⟩
              · rw [if_neg hfR]
                exact Or.inl (by simp only [SimState.page]; omega)
        · rw [if_neg hfL]
          rcases Nat.lt_or_ge (ps + 1) pt with hlt | hge
          · split_ifs <;> exact Or.inl (by simp only [SimState.page]; omega)
          · have heq : ps + 1 = pt := le_antisymm hP hge
            have htl : ¬ cfg.bottom_reserved ≤ yt - neededL cfg p :=
              fun h => hfL (by linarith)
            rw [if_neg htl]
            by_cases hfR : cfg.bottom_reserved ≤ cfg.topY - neededR cfg p
            · rw [if_pos hfR]
              exact Or.inr ⟨heq, Or.inr ⟨rfl, le_refl _⟩⟩
            · rw [if_neg hfR]
              exact Or.inl (by simp only [SimState.page]; omega)
    · rcases hcc with ⟨hbad, -⟩ | ⟨hbad, -⟩ <;> exact absurd hbad (by simp)
  -- case right, right
  · rcases hst with hP | ⟨hpg, hcc⟩
    · by_cases hsr : cfg.bottom_reserved ≤ ys - neededR cfg p
      · rw [if_pos hsr]
        split_ifs <;> exact Or.inl (by simp only [SimState.page]; omega)
      · rw [if_neg hsr]
        by_cases hfL : cfg.bottom_reserved ≤ cfg.topY - neededL cfg p
        · rw [if_pos hfL]
          rcases Nat.lt_or_ge (ps + 1) pt with hlt | hge
          · split_ifs <;> exact Or.inl (by simp only [SimState.page]; omega)
          · have heq : ps + 1 = pt := le_antisymm hP hge
            by_cases htr : cfg.bottom_reserved ≤ yt - neededR cfg p
            · rw [if_pos htr]
              exact Or.inr ⟨heq, Or.inl ⟨rfl, rfl⟩⟩
            · rw [if_neg htr, if_pos hfL]
              exact Or.inl (by simp only [SimState.page]; omega)
        · rw [if_neg hfL]
          rcases Nat.lt_or_ge (ps + 1) pt with hlt | hge
          · split_ifs <;> exact Or.inl (by simp only [SimState.page]; omega)
          · have heq : ps + 1 = pt := le_antisymm hP hge
            by_cases htr : cfg.bottom_reserved ≤ yt - neededR cfg p
            · rw [if_pos htr]
              exact Or.inr ⟨heq, Or.inr ⟨rfl, by simp only [SimState.y]; linarith⟩⟩
            · rw [if_neg htr, if_neg hfL]
              exact Or.inl (by simp only [SimState.page]; omega)
    · rcases hcc with ⟨hbad, -⟩ | ⟨-, hy⟩
      · exact absurd hbad (by simp)
      · subst hpg
        by_cases htr : cfg.bottom_reserved ≤ yt - neededR cfg p
        · have hsr : cfg.bottom_reserved ≤ ys - neededR cfg p := by linarith
          rw [if_pos hsr, if_pos htr]
          exact Or.inr ⟨rfl, Or.inr ⟨rfl, by simp only [SimState.y]; linarith⟩⟩
        · by_cases hsr : cfg.bottom_reserved ≤ ys - neededR cfg p
          · rw [if_pos hsr, if_neg htr]
            split_ifs <;> exact Or.inl (by simp only [SimState.page]; omega)
          · rw [if_neg hsr, if_neg htr]
            by_cases hfL : cfg.bottom_reserved ≤ cfg.topY - neededL cfg p
            · rw [if_pos hfL]
              exact Or.inr ⟨rfl, Or.inr ⟨rfl, le_refl _⟩⟩
            · rw [if_neg hfL]
              exact Or.inr ⟨rfl, Or.inr ⟨rfl, le_refl _⟩⟩

theorem placeItem_progress (cfg : Config) (hv : cfg.Valid) (s : SimState)
    (hwf : s.y ≤ cfg.topY) (p : WordPair) : stateLe s (placeItem cfg s p) := by
  have hL : (0 : ℚ) ≤ neededL cfg p := neededSpace_nonneg cfg hv cfg.text_max_w1 p
  have hR : (0 : ℚ) ≤ neededR cfg p := neededSpace_nonneg cfg hv cfg.text_max_w2 p
  obtain ⟨pg, col, y⟩ := s
  cases col <;> simp only [placeItem] <;> split_ifs <;>
    first
      | exact Or.inl (by simp only [SimState.page]; omega)
      | exact Or.inr ⟨rfl, Or.inl ⟨rfl, rfl⟩⟩
      | exact Or.inr ⟨rfl, Or.inr ⟨rfl, by simp only [SimState.y]; linarith⟩⟩

theorem foldl_placeItem_mono (cfg : Config) (hv : cfg.Valid) :
    ∀ {l1 l2 : List WordPair}, l1.Sublist l2 →
    ∀ {s t : SimState}, s.y ≤ cfg.topY → t.y ≤ cfg.topY → stateLe s t →
    stateLe (List.foldl (placeItem cfg) s l1)
      (List.foldl (placeItem cfg) t l2) := by
  intro l1 l2 hsub
  induction hsub with
  | slnil => intro s t _ _ hst; exact hst
  | cons a hsub ih =>
    intro s t hws hwt hst
    rw [List.foldl_cons]
    exact ih hws (wf_placeItem cfg hv hwt a)
      (stateLe_trans hst (placeItem_progress cfg hv t hwt a))
  | cons₂ a hsub ih =>
    intro s t hws hwt hst
    rw [List.foldl_cons, List.foldl_cons]
    exact ih (wf_placeItem cfg hv hws a) (wf_placeItem cfg hv hwt a)
      (placeItem_mono cfg hws hwt hst a)

/-- Core of C9: for valid geometry, the page count of the placement
automaton is monotone under taking supersequences. -/
theorem count_pages_mono (cfg : Config) (hv : cfg.Valid)
    {l1 l2 : List WordPair} (hsub : l1.Sublist l2) :
    count_pages cfg l1 ≤ count_pages cfg l2 :=
  stateLe_page
    (foldl_placeItem_mono cfg hv hsub (le_refl _) (le_refl _) (stateLe_refl _))

theorem test_loop_nil (cfg : Config) (label : Option (List Char))
    (idx pg fuel : ℕ) :
    create_test_loop cfg label idx pg [] fuel = some ([], pg) := by
  cases fuel <;> rfl

/-- The page loop's result is stable under extra fuel. -/
theorem test_loop_fuel_mono (cfg : Config) (label : Option (List Char)) :
    ∀ (fuel fuel' idx pg : ℕ) (items : List WordPair) (r : List Cmd × ℕ),
    fuel ≤ fuel' → create_test_loop cfg label idx pg items fuel = some r →
    create_test_loop cfg label idx pg items fuel' = some r := by
  intro fuel
  induction fuel with
  | zero =>
    intro fuel' idx pg items r _ h
    cases items with
    | nil =>
      rw [test_loop_nil] at h ⊢
      exact h
    | cons p rest => exact absurd h (by simp [create_test_loop])
  | succ f ih =>
    intro fuel' idx pg items r hle h
    cases items with
    | nil =>
      rw [test_loop_nil] at h ⊢
      exact h
    | cons p rest =>
      obtain ⟨f', rfl⟩ : ∃ f', fuel' = f' + 1 := ⟨fuel' - 1, by omega⟩
      simp only [create_test_loop] at h ⊢
      by_cases hrest : (placeRightTest cfg
          (placeLeftTest cfg idx cfg.topY (p :: rest)).2.1 cfg.topY
          (placeLeftTest cfg idx cfg.topY (p :: rest)).2.2.2).2.2.2 = []
      · rw [if_pos hrest] at h ⊢
        exact h
      · rw [if_neg hrest] at h ⊢
        rcases hx : create_test_loop cfg label
            (placeRightTest cfg
              (placeLeftTest cfg idx cfg.topY (p :: rest)).2.1 cfg.topY
              (placeLeftTest cfg idx cfg.topY (p :: rest)).2.2.2).2.1 (pg + 1)
            (placeRightTest cfg
              (placeLeftTest cfg idx cfg.topY (p :: rest)).2.1 cfg.topY
              (placeLeftTest cfg idx cfg.topY (p :: rest)).2.2.2).2.2.2 f
          with _ | st
        · rw [hx] at h
          exact absurd h (by simp)
        · rw [hx] at h
          rw [ih f' _ _ _ st (by omega) hx]
          exact h

/-- Every item of a run that terminates fits in some fresh column: an item
placed at cursor `y ≤ topY` fits a fortiori at `topY`. -/
theorem placeLeftTest_fits (cfg : Config) (hv : cfg.Valid) :
    ∀ (items : List WordPair) (idx : ℕ) (y : ℚ), y ≤ cfg.topY →
    ∀ p ∈ items, p ∈ (placeLeftTest cfg idx y items).2.2.2 ∨ Fits cfg p := by
  intro items
  induction items with
  | nil => intro idx y _ p hp; exact absurd hp (List.not_mem_nil p)
  | cons q rest ih =>
    intro idx y hy p hp
    by_cases h : y - neededL cfg q < cfg.bottom_reserved
    · simp only [placeLeftTest, if_pos h]
      exact Or.inl hp
    · simp only [placeLeftTest, if_neg h]
      rcases List.mem_cons.1 hp with rfl | hp'
      · refine Or.inr (Or.inl ?_)
        have h' := not_lt.1 h
        linarith
      · exact ih (idx + 1) (y - neededL cfg q)
          (by have := neededSpace_nonneg cfg hv cfg.text_max_w1 q
              have h2 : (0 : ℚ) ≤ neededL cfg q := this
              linarith) p hp'

theorem placeRightTest_fits (cfg : Config) (hv : cfg.Valid) :
    ∀ (items : List WordPair) (idx : ℕ) (y : ℚ), y ≤ cfg.topY →
    ∀ p ∈ items, p ∈ (placeRightTest cfg idx y items).2.2.2 ∨ Fits cfg p := by
  intro items
  induction items with
  | nil => intro idx y _ p hp; exact absurd hp (List.not_mem_nil p)
  | cons q rest ih =>
    intro idx y hy p hp
    by_cases h : y - neededR cfg q < cfg.bottom_reserved
    · simp only [placeRightTest, if_pos h]
      exact Or.inl hp
    · simp only [placeRightTest, if_neg h]
      rcases List.mem_cons.1 hp with rfl | hp'
      · refine Or.inr (Or.inr ?_)
        have h' := not_lt.1 h
        linarith
      · exact ih (idx + 1) (y - neededR cfg q)
          (by have := neededSpace_nonneg cfg hv cfg.text_max_w2 q
              have h2 : (0 : ℚ) ≤ neededR cfg q := this
              linarith) p hp'

/-- If the quiz-sheet page loop terminates, every processed item fits in
some fresh column. -/
theorem test_loop_fits (cfg : Config) (label : Option (List Char))
    (hv : cfg.Valid) :
    ∀ (fuel idx pg : ℕ) (items : List WordPair) (r : List Cmd × ℕ),
    create_test_loop cfg label idx pg items fuel = some r →
    ∀ p ∈ items, Fits cfg p := by
  intro fuel
  induction fuel with
  | zero =>
    intro idx pg items r h p hp
    cases items with
    | nil => exact absurd hp (List.not_mem_nil p)
    | cons q rest => exact absurd h (by simp [create_test_loop])
  | succ f ih =>
    intro idx pg items r h p hp
    cases items with
    | nil => exact absurd hp (List.not_mem_nil p)
    | cons q rest =>
      rcases placeLeftTest_fits cfg hv (q :: rest) idx cfg.topY (le_refl _)
          p hp with h1 | h1
      · rcases placeRightTest_fits cfg hv
            (placeLeftTest cfg idx cfg.topY (q :: rest)).2.2.2
            (placeLeftTest cfg idx cfg.topY (q :: rest)).2.1 cfg.topY
            (le_refl _) p h1 with h2 | h2
        · simp only [create_test_loop] at h
          by_cases hrest : (placeRightTest cfg
              (placeLeftTest cfg idx cfg.topY (q :: rest)).2.1 cfg.topY
              (placeLeftTest cfg idx cfg.topY (q :: rest)).2.2.2).2.2.2 = []
          · rw [hrest] at h2
            exact absurd h2 (List.not_mem_nil p)
          · rw [if_neg hrest] at h
            rcases hx : create_test_loop cfg label
                (placeRightTest cfg
                  (placeLeftTest cfg idx cfg.topY (q :: rest)).2.1 cfg.topY
                  (placeLeftTest cfg idx cfg.topY (q :: rest)).2.2.2).2.1
                (pg + 1)
                (placeRightTest cfg
                  (placeLeftTest cfg idx cfg.topY (q :: rest)).2.1 cfg.topY
                  (placeLeftTest cfg idx cfg.topY (q :: rest)).2.2.2).2.2.2 f
              with _ | st
            · rw [hx] at h
              exact absurd h (by simp)
            · exact ih _ (pg + 1) _ st hx p h2
        · exact h2
      · exact h1

/-- C9: page-count monotonicity.  For a fixed (sign-valid) geometry,
whenever two runs of `create_test_pdf` both produce documents and the
first run's item sequence is a subsequence of the second's (existing items
in the same relative order), the first page count never exceeds the
second.  (A run that produces a document certifies that each of its items
fits a fresh column, so both counts equal the placement automaton's fold,
which is monotone under supersequences.) -/
theorem C9_page_count_monotone (cfg : Config) (hv : cfg.Valid)
    {l1 l2 : List WordPair} (hsub : l1.Sublist l2)
    {n1 n2 f1 f2 : ℕ} {label1 label2 : Option (List Char)} {pc1 pc2 : ℕ}
    (hn1 : l1.length ≤ n1) (hn2 : l2.length ≤ n2)
    (h1 : (create_test_pdf cfg l1 n1 label1 f1).map (fun r => r.2) = some pc1)
    (h2 : (create_test_pdf cfg l2 n2 label2 f2).map (fun r => r.2) = some pc2) :
    pc1 ≤ pc2 := by
  have ht1 : l1.take (min n1 l1.length) = l1 := by
    rw [min_eq_right hn1, List.take_length]
  have ht2 : l2.take (min n2 l2.length) = l2 := by
    rw [min_eq_right hn2, List.take_length]
  rcases Option.map_eq_some'.1 h1 with ⟨r1, hr1, hpc1⟩
  rcases Option.map_eq_some'.1 h2 with ⟨r2, hr2, hpc2⟩
  simp only [create_test_pdf, ht1] at hr1
  simp only [create_test_pdf, ht2] at hr2
  have hFits2 : ∀ p ∈ l2, Fits cfg p :=
    fun p hp => test_loop_fits cfg label2 hv f2 0 1 l2 r2 hr2 p hp
  have hFits1 : ∀ p ∈ l1, Fits cfg p :=
    fun p hp => hFits2 p (hsub.subset hp)
  obtain ⟨c1, hc1⟩ :=
    test_loop_eq_count cfg label1 (l1.length + 1) l1 0 1 hFits1 (by omega)
  obtain ⟨c2, hc2⟩ :=
    test_loop_eq_count cfg label2 (l2.length + 1) l2 0 1 hFits2 (by omega)
  have hs1 := test_loop_fuel_mono cfg label1 f1 (max f1 (l1.length + 1)) 0 1
    l1 r1 (le_max_left _ _) hr1
  have hs1' := test_loop_fuel_mono cfg label1 (l1.length + 1)
    (max f1 (l1.length + 1)) 0 1 l1 _ (le_max_right _ _) hc1
  have hs2 := test_loop_fuel_mono cfg label2 f2 (max f2 (l2.length + 1)) 0 1
    l2 r2 (le_max_left _ _) hr2
  have hs2' := test_loop_fuel_mono cfg label2 (l2.length + 1)
    (max f2 (l2.length + 1)) 0 1 l2 _ (le_max_right _ _) hc2
  have he1 : r1 = (c1, (List.foldl (placeItem cfg)
      (⟨1, Col.left, cfg.topY⟩ : SimState) l1).page) := by
    have := hs1.symm.trans hs1'
    exact Option.some.inj this
  have he2 : r2 = (c2, (List.foldl (placeItem cfg)
      (⟨1, Col.left, cfg.topY⟩ : SimState) l2).page) := by
    have := hs2.symm.trans hs2'
    exact Option.some.inj this
  have hp1 : pc1 = count_pages cfg l1 := by
    rw [← hpc1, he1]
    rfl
  have hp2 : pc2 = count_pages cfg l2 := by
    rw [← hpc2, he2]
    rfl
  rw [hp1, hp2]
  exact count_pages_mono cfg hv hsub

theorem C9_page_count_monotone_witness :
    toyCfg.Valid ∧ ([] : List WordPair).Sublist items5 ∧
    (create_test_pdf toyCfg [] 0 none 1).map (fun r => r.2) = some 1 ∧
    (create_test_pdf toyCfg items5 5 none 6).map (fun r => r.2) = some 2 ∧
    (1 : ℕ) ≤ 2 :=
  ⟨by with_unfolding_all decide, List.nil_sublist items5,
   by with_unfolding_all decide, by with_unfolding_all decide,
   @C9_page_count_monotone toyCfg (by with_unfolding_all decide) [] items5
     (List.nil_sublist items5) 0 5 1 6 none none 1 2 (by simp)
     (by with_unfolding_all decide)
     (by with_unfolding_all decide) (by with_unfolding_all decide)⟩

/-! ## Claim C8: answer-sheet answer emission

Soundness: every string drawn in blue anywhere in the answer document is a
line of `wrap(answer_text, under_len - 2mm)` for some input item, drawn at
`under_x + 1mm` (inside the underline span).  Completeness: for every item
of a terminating run, all of its answer commands appear in the stream. -/

theorem snd_mem_of_mem_enum {α : Type} {l : List α} {ix : ℕ × α}
    (h : ix ∈ l.enum) : ix.2 ∈ l := by
  have := List.mem_map_of_mem Prod.snd h
  rwa [List.enum_map_snd] at this

theorem blue_not_mem_itemCmds (cfg : Config) (numX textX underX : ℚ)
    (idx : ℕ) (y : ℚ) (lines : List (List Char)) (x yy : ℚ) (s : List Char) :
    Cmd.drawString x yy s PdfColor.blue ∉ itemCmds cfg numX textX underX idx y lines := by
  intro h
  simp [itemCmds] at h

theorem blue_not_mem_headerCmds (cfg : Config) (label : Option (List Char))
    (x yy : ℚ) (s : List Char) :
    Cmd.drawString x yy s PdfColor.blue ∉ headerCmds cfg label := by
  intro h
  simp [headerCmds] at h

theorem mem_answerCmds_elim (cfg : Config) (underX : ℚ) (y : ℚ) (p : WordPair)
    (x yy : ℚ) (s : List Char)
    (h : Cmd.drawString x yy s PdfColor.blue ∈ answerCmds cfg underX y p) :
    x = underX + 1 * mmQ ∧
    s ∈ wrap_text_by_width cfg.stringWidth (cfg.under_len - 2 * mmQ)
      (answerText p) := by
  rcases List.mem_map.1 h with ⟨li, hli, heq⟩
  simp only [Cmd.drawString.injEq] at heq
  obtain ⟨hx, -, hs, -⟩ := heq
  exact ⟨hx.symm, hs ▸ snd_mem_of_mem_enum hli⟩

theorem placeLeftAns_blue (cfg : Config) :
    ∀ (items : List WordPair) (idx : ℕ) (y x yy : ℚ) (s : List Char),
    Cmd.drawString x yy s PdfColor.blue ∈ (placeLeftAns cfg idx y items).1 →
    ∃ p ∈ items, x = cfg.under_x1 + 1 * mmQ ∧
      s ∈ wrap_text_by_width cfg.stringWidth (cfg.under_len - 2 * mmQ)
        (answerText p) := by
  intro items
  induction items with
  | nil => intro idx y x yy s h; exact absurd h (List.not_mem_nil _)
  | cons q rest ih =>
    intro idx y x yy s h
    by_cases hfit : y - neededL cfg q < cfg.bottom_reserved
    · simp only [placeLeftAns, if_pos hfit] at h
      exact absurd h (List.not_mem_nil _)
    · simp only [placeLeftAns, if_neg hfit, List.append_assoc,
        List.mem_append] at h
      rcases h with h | h | h
      · exact absurd h (blue_not_mem_itemCmds cfg _ _ _ _ _ _ _ _ _)
      · obtain ⟨hx, hs⟩ := mem_answerCmds_elim cfg cfg.under_x1 y q x yy s h
        exact ⟨q, List.mem_cons_self _ _, hx, hs⟩
      · obtain ⟨p, hp, hxs⟩ := ih (idx + 1) (y - neededL cfg q) x yy s h
        exact ⟨p, List.mem_cons_of_mem _ hp, hxs⟩

theorem placeRightAns_blue (cfg : Config) :
    ∀ (items : List WordPair) (idx : ℕ) (y x yy : ℚ) (s : List Char),
    Cmd.drawString x yy s PdfColor.blue ∈ (placeRightAns cfg idx y items).1 →
    ∃ p ∈ items, x = cfg.under_x2 + 1 * mmQ ∧
      s ∈ wrap_text_by_width cfg.stringWidth (cfg.under_len - 2 * mmQ)
        (answerText p) := by
  intro items
  induction items with
  | nil => intro idx y x yy s h; exact absurd h (List.not_mem_nil _)
  | cons q rest ih =>
    intro idx y x yy s h
    by_cases hfit : y - neededR cfg q < cfg.bottom_reserved
    · simp only [placeRightAns, if_pos hfit] at h
      exact absurd h (List.not_mem_nil _)
    · simp only [placeRightAns, if_neg hfit, List.append_assoc,
        List.mem_append] at h
      rcases h with h | h | h
      · exact absurd h (blue_not_mem_itemCmds cfg _ _ _ _ _ _ _ _ _)
      · obtain ⟨hx, hs⟩ := mem_answerCmds_elim cfg cfg.under_x2 y q x yy s h
        exact ⟨q, List.mem_cons_self _ _, hx, hs⟩
      · obtain ⟨p, hp, hxs⟩ := ih (idx + 1) (y - neededR cfg q) x yy s h
        exact ⟨p, List.mem_cons_of_mem _ hp, hxs⟩

theorem placeLeftAns_rest_subset (cfg : Config) (idx : ℕ) (y : ℚ)
    (items : List WordPair) :
    ∀ x ∈ (placeLeftAns cfg idx y items).2.2.2, x ∈ items := by
  intro x hx
  rw [placeLeftAns_eq_test cfg idx y items] at hx
  obtain ⟨t, ht, -⟩ := placeLeftTest_split cfg 1 items idx y
  rw [ht]
  exact List.mem_append_right t hx

theorem placeRightAns_rest_subset (cfg : Config) (idx : ℕ) (y : ℚ)
    (items : List WordPair) :
    ∀ x ∈ (placeRightAns cfg idx y items).2.2.2, x ∈ items := by
  intro x hx
  rw [placeRightAns_eq_test cfg idx y items] at hx
  obtain ⟨t, ht, -⟩ := placeRightTest_split cfg 1 items idx y
  rw [ht]
  exact List.mem_append_right t hx

theorem answer_loop_blue (cfg : Config) (label : Option (List Char)) :
    ∀ (fuel idx pg : ℕ) (items : List WordPair) (cmds : List Cmd) (pc : ℕ),
    create_answer_loop cfg label idx pg items fuel = some (cmds, pc) →
    ∀ (x yy : ℚ) (s : List Char),
    Cmd.drawString x yy s PdfColor.blue ∈ cmds →
    ∃ p ∈ items,
      (x = cfg.under_x1 + 1 * mmQ ∨ x = cfg.under_x2 + 1 * mmQ) ∧
      s ∈ wrap_text_by_width cfg.stringWidth (cfg.under_len - 2 * mmQ)
        (answerText p) := by
  intro fuel
  induction fuel with
  | zero =>
    intro idx pg items cmds pc h x yy s hm
    cases items with
    | nil =>
      have h2 : (some (([] : List Cmd), pg) : Option (List Cmd × ℕ))
          = some (cmds, pc) := h
      rw [Option.some.injEq, Prod.mk.injEq] at h2
      obtain ⟨hc, -⟩ := h2
      rw [← hc] at hm
      exact absurd hm (List.not_mem_nil _)
    | cons q rest => exact absurd h (by simp [create_answer_loop])
  | succ f ih =>
    intro idx pg items cmds pc h x yy s hm
    cases items with
    | nil =>
      have h2 : (some (([] : List Cmd), pg) : Option (List Cmd × ℕ))
          = some (cmds, pc) := h
      rw [Option.some.injEq, Prod.mk.injEq] at h2
      obtain ⟨hc, -⟩ := h2
      rw [← hc] at hm
      exact absurd hm (List.not_mem_nil _)
    | cons q rest =>
      simp only [create_answer_loop] at h
      by_cases hrest : (placeRightAns cfg
          (placeLeftAns cfg idx cfg.topY (q :: rest)).2.1 cfg.topY
          (placeLeftAns cfg idx cfg.topY (q :: rest)).2.2.2).2.2.2 = []
      · rw [if_pos hrest] at h
        rw [Option.some.injEq, Prod.mk.injEq] at h
        obtain ⟨hcmds, -⟩ := h
        subst hcmds
        rcases List.mem_append.1 hm with hm | hm
        swap
        · exact absurd hm (by simp [footerCmd])
        rcases List.mem_append.1 hm with hm | hm
        swap
        · obtain ⟨p, hp, hx1, hs⟩ :=
            placeRightAns_blue cfg _ _ cfg.topY x yy s hm
          exact ⟨p, placeLeftAns_rest_subset cfg idx cfg.topY (q :: rest) p hp,
            Or.inr hx1, hs⟩
        rcases List.mem_append.1 hm with hm | hm
        · split_ifs at hm with hpg
          · exact absurd hm (blue_not_mem_headerCmds cfg label x yy s)
          · exact absurd hm (List.not_mem_nil _)
        · obtain ⟨p, hp, hx1, hs⟩ :=
            placeLeftAns_blue cfg (q :: rest) idx cfg.topY x yy s hm
          exact ⟨p, hp, Or.inl hx1, hs⟩
      · rw [if_neg hrest] at h
        rcases hx : create_answer_loop cfg label
            (placeRightAns cfg
              (placeLeftAns cfg idx cfg.topY (q :: rest)).2.1 cfg.topY
              (placeLeftAns cfg idx cfg.topY (q :: rest)).2.2.2).2.1 (pg + 1)
            (placeRightAns cfg
              (placeLeftAns cfg idx cfg.topY (q :: rest)).2.1 cfg.topY
              (placeLeftAns cfg idx cfg.topY (q :: rest)).2.2.2).2.2.2 f
          with _ | st
        · rw [hx] at h
          exact absurd h (by simp)
        · rw [hx] at h
          rw [Option.some.injEq, Prod.mk.injEq] at h
          obtain ⟨hcmds, -⟩ := h
          subst hcmds
          rcases List.mem_append.1 hm with hm | hm
          swap
          · obtain ⟨p, hp, hx3, hs⟩ := ih _ (pg + 1) _ st.1 st.2
              (by rw [hx]) x yy s hm
            refine ⟨p, ?_, hx3, hs⟩
            exact placeLeftAns_rest_subset cfg idx cfg.topY (q :: rest) p
              (placeRightAns_rest_subset cfg _ cfg.topY _ p hp)
          rcases List.mem_append.1 hm with hm | hm
          swap
          · exact absurd hm (by simp [footerCmd])
          rcases List.mem_append.1 hm with hm | hm
          swap
          · obtain ⟨p, hp, hx2, hs⟩ :=
              placeRightAns_blue cfg _ _ cfg.topY x yy s hm
            exact ⟨p, placeLeftAns_rest_subset cfg idx cfg.topY (q :: rest) p hp,
              Or.inr hx2, hs⟩
          rcases List.mem_append.1 hm with hm | hm
          · split_ifs at hm with hpg
            · exact absurd hm (blue_not_mem_headerCmds cfg label x yy s)
            · exact absurd hm (List.not_mem_nil _)
          · obtain ⟨p, hp, hx1, hs⟩ :=
              placeLeftAns_blue cfg (q :: rest) idx cfg.topY x yy s hm
            exact ⟨p, hp, Or.inl hx1, hs⟩

theorem placeLeftAns_emits (cfg : Config) :
    ∀ (items : List WordPair) (idx : ℕ) (y : ℚ) (p : WordPair), p ∈ items →
    p ∈ (placeLeftAns cfg idx y items).2.2.2 ∨
    ∃ yy, ∀ c ∈ answerCmds cfg cfg.under_x1 yy p,
      c ∈ (placeLeftAns cfg idx y items).1 := by
  intro items
  induction items with
  | nil => intro idx y p hp; exact absurd hp (List.not_mem_nil p)
  | cons q rest ih =>
    intro idx y p hp
    by_cases hfit : y - neededL cfg q < cfg.bottom_reserved
    · simp only [placeLeftAns, if_pos hfit]
      exact Or.inl hp
    · simp only [placeLeftAns, if_neg hfit]
      rcases List.mem_cons.1 hp with rfl | hp'
      · refine Or.inr ⟨y, fun c hc => ?_⟩
        rw [List.append_assoc]
        exact List.mem_append_right _ (List.mem_append_left _ hc)
      · rcases ih (idx + 1) (y - neededL cfg q) p hp' with h | ⟨yy, hall⟩
        · exact Or.inl h
        · refine Or.inr ⟨yy, fun c hc => ?_⟩
          rw [List.append_assoc]
          exact List.mem_append_right _ (List.mem_append_right _ (hall c hc))

theorem placeRightAns_emits (cfg : Config) :
    ∀ (items : List WordPair) (idx : ℕ) (y : ℚ) (p : WordPair), p ∈ items →
    p ∈ (placeRightAns cfg idx y items).2.2.2 ∨
    ∃ yy, ∀ c ∈ answerCmds cfg cfg.under_x2 yy p,
      c ∈ (placeRightAns cfg idx y items).1 := by
  intro items
  induction items with
  | nil => intro idx y p hp; exact absurd hp (List.not_mem_nil p)
  | cons q rest ih =>
    intro idx y p hp
    by_cases hfit : y - neededR cfg q < cfg.bottom_reserved
    · simp only [placeRightAns, if_pos hfit]
      exact Or.inl hp
    · simp only [placeRightAns, if_neg hfit]
      rcases List.mem_cons.1 hp with rfl | hp'
      · refine Or.inr ⟨y, fun c hc => ?_⟩
        rw [List.append_assoc]
        exact List.mem_append_right _ (List.mem_append_left _ hc)
      · rcases ih (idx + 1) (y - neededR cfg q) p hp' with h | ⟨yy, hall⟩
        · exact Or.inl h
        · refine Or.inr ⟨yy, fun c hc => ?_⟩
          rw [List.append_assoc]
          exact List.mem_append_right _ (List.mem_append_right _ (hall c hc))

theorem answer_loop_emits (cfg : Config) (label : Option (List Char)) :
    ∀ (fuel idx pg : ℕ) (items : List WordPair) (cmds : List Cmd) (pc : ℕ),
    create_answer_loop cfg label idx pg items fuel = some (cmds, pc) →
    ∀ p ∈ items, ∃ ux yy, (ux = cfg.under_x1 ∨ ux = cfg.under_x2) ∧
      ∀ c ∈ answerCmds cfg ux yy p, c ∈ cmds := by
  intro fuel
  induction fuel with
  | zero =>
    intro idx pg items cmds pc h p hp
    cases items with
    | nil => exact absurd hp (List.not_mem_nil p)
    | cons q rest => exact absurd h (by simp [create_answer_loop])
  | succ f ih =>
    intro idx pg items cmds pc h p hp
    cases items with
    | nil => exact absurd hp (List.not_mem_nil p)
    | cons q rest =>
      simp only [create_answer_loop] at h
      rcases placeLeftAns_emits cfg (q :: rest) idx cfg.topY p hp
        with h1 | ⟨yy, hall⟩
      swap
      · -- emitted by the left pass on this page
        refine ⟨cfg.under_x1, yy, Or.inl rfl, fun c hc => ?_⟩
        have hcL : c ∈ (placeLeftAns cfg idx cfg.topY (q :: rest)).1 := hall c hc
        by_cases hrest : (placeRightAns cfg
            (placeLeftAns cfg idx cfg.topY (q :: rest)).2.1 cfg.topY
            (placeLeftAns cfg idx cfg.topY (q :: rest)).2.2.2).2.2.2 = []
        · rw [if_pos hrest] at h
          rw [Option.some.injEq, Prod.mk.injEq] at h
          obtain ⟨hcmds, -⟩ := h
          rw [← hcmds, List.append_assoc, List.append_assoc]
          exact List.mem_append_right _ (List.mem_append_left _ hcL)
        · rw [if_neg hrest] at h
          rcases hx : create_answer_loop cfg label
              (placeRightAns cfg
                (placeLeftAns cfg idx cfg.topY (q :: rest)).2.1 cfg.topY
                (placeLeftAns cfg idx cfg.topY (q :: rest)).2.2.2).2.1 (pg + 1)
              (placeRightAns cfg
                (placeLeftAns cfg idx cfg.topY (q :: rest)).2.1 cfg.topY
                (placeLeftAns cfg idx cfg.topY (q :: rest)).2.2.2).2.2.2 f
            with _ | st
          · rw [hx] at h
            exact absurd h (by simp)
          · rw [hx] at h
            rw [Option.some.injEq, Prod.mk.injEq] at h
            obtain ⟨hcmds, -⟩ := h
            rw [← hcmds, List.append_assoc, List.append_assoc,
              List.append_assoc]
            exact List.mem_append_right _ (List.mem_append_left _ hcL)
      · rcases placeRightAns_emits cfg _
          (placeLeftAns cfg idx cfg.topY (q :: rest)).2.1 cfg.topY p h1
          with h2 | ⟨yy, hall⟩
        swap
        · refine ⟨cfg.under_x2, yy, Or.inr rfl, fun c hc => ?_⟩
          have hcR : c ∈ (placeRightAns cfg
              (placeLeftAns cfg idx cfg.topY (q :: rest)).2.1 cfg.topY
              (placeLeftAns cfg idx cfg.topY (q :: rest)).2.2.2).1 := hall c hc
          by_cases hrest : (placeRightAns cfg
              (placeLeftAns cfg idx cfg.topY (q :: rest)).2.1 cfg.topY
              (placeLeftAns cfg idx cfg.topY (q :: rest)).2.2.2).2.2.2 = []
          · rw [if_pos hrest] at h
            rw [Option.some.injEq, Prod.mk.injEq] at h
            obtain ⟨hcmds, -⟩ := h
            rw [← hcmds, List.append_assoc, List.append_assoc]
            exact List.mem_append_right _
              (List.mem_append_right _ (List.mem_append_left _ hcR))
          · rw [if_neg hrest] at h
            rcases hx : create_answer_loop cfg label
                (placeRightAns cfg
                  (placeLeftAns cfg idx cfg.topY (q :: rest)).2.1 cfg.topY
                  (placeLeftAns cfg idx cfg.topY (q :: rest)).2.2.2).2.1 (pg + 1)
                (placeRightAns cfg
                  (placeLeftAns cfg idx cfg.topY (q :: rest)).2.1 cfg.topY
                  (placeLeftAns cfg idx cfg.topY (q :: rest)).2.2.2).2.2.2 f
              with _ | st
            · rw [hx] at h
              exact absurd h (by simp)
            · rw [hx] at h
              rw [Option.some.injEq, Prod.mk.injEq] at h
              obtain ⟨hcmds, -⟩ := h
              rw [← hcmds, List.append_assoc, List.append_assoc,
                List.append_assoc]
              exact List.mem_append_right _ (List.mem_append_right _
                (List.mem_append_left _ hcR))
        · -- p is still unplaced after this page: recurse
          by_cases hrest : (placeRightAns cfg
              (placeLeftAns cfg idx cfg.topY (q :: rest)).2.1 cfg.topY
              (placeLeftAns cfg idx cfg.topY (q :: rest)).2.2.2).2.2.2 = []
          · rw [hrest] at h2
            exact absurd h2 (List.not_mem_nil p)
          · rw [if_neg hrest] at h
            rcases hx : create_answer_loop cfg label
                (placeRightAns cfg
                  (placeLeftAns cfg idx cfg.topY (q :: rest)).2.1 cfg.topY
                  (placeLeftAns cfg idx cfg.topY (q :: rest)).2.2.2).2.1 (pg + 1)
                (placeRightAns cfg
                  (placeLeftAns cfg idx cfg.topY (q :: rest)).2.1 cfg.topY
                  (placeLeftAns cfg idx cfg.topY (q :: rest)).2.2.2).2.2.2 f
              with _ | st
            · rw [hx] at h
              exact absurd h (by simp)
            · rw [hx] at h
              rw [Option.some.injEq, Prod.mk.injEq] at h
              obtain ⟨hcmds, -⟩ := h
              obtain ⟨ux, yy, hux, hall⟩ := ih _ (pg + 1) _ st.1 st.2
                (by rw [hx]) p h2
              refine ⟨ux, yy, hux, fun c hc => ?_⟩
              rw [← hcmds]
              exact List.mem_append_right _ (hall c hc)

/-- C8: in answer-sheet mode, every string drawn in blue — a color distinct
from the black used for item numbers and prompt text — is a line of the
wrap (at width `under_len - 2mm`) of the item's non-displayed string (for
`front_is_shown = false` that string is `eng`, the original prompt),
positioned at `under_x + 1mm`, inside the underline span `[under_x,
under_x + under_len]`; and conversely every selected item of a terminating
run has all of its (blue, so-wrapped, so-positioned) answer commands
emitted in the stream. -/
theorem C8_answer_emission (cfg : Config) (label : Option (List Char))
    (word_pairs : List WordPair) (num_questions fuel : ℕ)
    (cmds : List Cmd) (pc : ℕ)
    (hinset : mmQ ≤ cfg.under_len)
    (h : create_answer_pdf cfg word_pairs num_questions label fuel
      = some (cmds, pc)) :
    (∀ (x y : ℚ) (s : List Char),
      Cmd.drawString x y s PdfColor.blue ∈ cmds →
      ∃ p ∈ word_pairs.take (min num_questions word_pairs.length),
        s ∈ wrap_text_by_width cfg.stringWidth (cfg.under_len - 2 * mmQ)
          (answerText p) ∧
        ((x = cfg.under_x1 + 1 * mmQ ∧ cfg.under_x1 ≤ x ∧
            x ≤ cfg.under_x1 + cfg.under_len) ∨
         (x = cfg.under_x2 + 1 * mmQ ∧ cfg.under_x2 ≤ x ∧
            x ≤ cfg.under_x2 + cfg.under_len))) ∧
    (∀ p ∈ word_pairs.take (min num_questions word_pairs.length),
      ∃ ux yy, (ux = cfg.under_x1 ∨ ux = cfg.under_x2) ∧
        ∀ c ∈ answerCmds cfg ux yy p, c ∈ cmds) ∧
    (∀ p : WordPair, p.is_kor_blank = false → answerText p = p.eng) ∧
    PdfColor.blue ≠ PdfColor.black := by
  have hmm0 : (0 : ℚ) ≤ mmQ := by norm_num [mmQ]
  refine ⟨?_, ?_, ?_, by simp⟩
  · intro x y s hm
    obtain ⟨p, hp, hx, hs⟩ :=
      answer_loop_blue cfg label fuel 0 1
        (word_pairs.take (min num_questions word_pairs.length)) cmds pc h x y s hm
    refine ⟨p, hp, hs, ?_⟩
    rcases hx with hx | hx
    · refine Or.inl ⟨hx, ?_, ?_⟩ <;> rw [hx] <;> linarith
    · refine Or.inr ⟨hx, ?_, ?_⟩ <;> rw [hx] <;> linarith
  · exact answer_loop_emits cfg label fuel 0 1
      (word_pairs.take (min num_questions word_pairs.length)) cmds pc h
  · intro p hp
    simp [answerText, hp]

/-- The single item of the concrete answer-sheet run used to witness C8:
`front_is_shown = false`, so the blue answer must be the English side. -/
def c8pair : WordPair := ⟨"E".toList, "K".toList, false⟩

/-- The expected command stream of that run: first-page header, the one item
placed at the top of the left column (number, prompt lines, underline, blue
answer), footer `Page 1`. -/
def c8cmds : List Cmd :=
  headerCmds toyCfg none ++
  (itemCmds toyCfg toyCfg.num_x1 toyCfg.text_x1 toyCfg.under_x1 0 toyCfg.topY
      (wrappedLines toyCfg toyCfg.text_max_w1 c8pair) ++
    answerCmds toyCfg toyCfg.under_x1 toyCfg.topY c8pair ++ []) ++
  [] ++ [footerCmd toyCfg 1]

theorem c8run_eq : create_answer_pdf toyCfg [c8pair] 1 none 2
    = some (c8cmds, 1) := by
  with_unfolding_all rfl

theorem C8_answer_emission_witness :
    mmQ ≤ toyCfg.under_len ∧
    create_answer_pdf toyCfg [c8pair] 1 none 2 = some (c8cmds, 1) ∧
    ((∀ p ∈ ([c8pair] : List WordPair).take
        (min 1 ([c8pair] : List WordPair).length),
      ∃ ux yy, (ux = toyCfg.under_x1 ∨ ux = toyCfg.under_x2) ∧
        ∀ c ∈ answerCmds toyCfg ux yy p, c ∈ c8cmds) ∧
     ∀ p : WordPair, p.is_kor_blank = false → answerText p = p.eng) :=
  ⟨by with_unfolding_all decide, c8run_eq,
   have h := C8_answer_emission toyCfg none [c8pair] 1 2 c8cmds 1
     (by with_unfolding_all decide) c8run_eq
   ⟨h.2.1, h.2.2.1⟩⟩

end Aleph
